import Mathlib

/-!
Verification development for the pnarust key/value store
(`src/projects/project-4/src/kvs_engine/kv_store.rs` together with the
`Command` and `Error` types of `src/projects/project-4/src/lib.rs` and
`src/projects/project-3/src/error.rs`).

Modelling conventions:

* Keys, values and file contents are lists of characters.  Each `Char`
  stands for one unit of the UTF-8 text the Rust code manipulates, and
  byte offsets are modelled as list positions (exact for the data the
  theorems evaluate; the Rust code never splits a multi-byte scalar).
* The store directory is a list of file contents: position `i` of the
  list is the content of `kvs.data.<i>`.  The code keeps the segment
  files contiguous from 0, with the largest id active, so a list is a
  faithful picture of every state the program produces.
* `serde_json` is modelled concretely: the serializer emits the
  canonical externally-tagged encoding (`\x7b"Set":\x7b"key":K,"value":V\x7d\x7d`
  and friends) with `serde_json`'s string escaping; the parser accepts
  the canonical grammar the serializer emits (including `\uXXXX`
  escapes), which agrees with `serde_json` on every log content the
  program itself writes.
* `BufWriter` buffering is modelled as immediate appends: the Rust code
  flushes after every record it reports to a caller, and every read or
  offset observation in the engine happens after such a flush point.
* Fallible operations return `Except Error _`; the mutating operations
  `set`, `remove`, `try_compact` and `compact` return the post-state
  together with `Option Error`, because the Rust code mutates state in
  place and an early `?` return keeps the mutations already performed.
-/

/-- Decidable equality for `Except`, so that concrete engine results can
be checked by `decide`. -/
instance {ε α : Type} [DecidableEq ε] [DecidableEq α] : DecidableEq (Except ε α) := fun x y =>
  match x, y with
  | .ok a, .ok b =>
    if h : a = b then .isTrue (by rw [h]) else .isFalse (by intro hc; cases hc; exact h rfl)
  | .error a, .error b =>
    if h : a = b then .isTrue (by rw [h]) else .isFalse (by intro hc; cases hc; exact h rfl)
  | .ok _, .error _ => .isFalse (by intro hc; cases hc)
  | .error _, .ok _ => .isFalse (by intro hc; cases hc)

namespace KvStore

/-- Keys, values and raw file contents. -/
abbrev Str := List Char

/-- The `Command` enum of `src/projects/project-4/src/lib.rs`. -/
inductive Command where
  | Set (key value : Str)
  | Get (key : Str)
  | Rm (key : Str)
deriving DecidableEq

/-- The variants of the `Error` enum of `src/projects/project-3/src/error.rs`
that the storage engine can produce. -/
inductive Error where
  | IOError
  | SerdeJSONError
  | ErrorLogMeet
  | KeyNotFound
deriving DecidableEq

/-- Lower-case hex digit, as emitted by `serde_json`'s `\u00XX` escapes. -/
def hexDig : Nat → Char
  | 0 => '0' | 1 => '1' | 2 => '2' | 3 => '3'
  | 4 => '4' | 5 => '5' | 6 => '6' | 7 => '7'
  | 8 => '8' | 9 => '9' | 10 => 'a' | 11 => 'b'
  | 12 => 'c' | 13 => 'd' | 14 => 'e' | 15 => 'f'
  | _ => '0'

/-- Value of a hex digit accepted by `serde_json`'s `\uXXXX` escape parser. -/
def hexVal (c : Char) : Option Nat :=
  if '0' ≤ c ∧ c ≤ '9' then some (c.toNat - 48)
  else if 'a' ≤ c ∧ c ≤ 'f' then some (c.toNat - 87)
  else if 'A' ≤ c ∧ c ≤ 'F' then some (c.toNat - 55)
  else none

/-- `serde_json` string escaping of a single character: `"` and `\` are
escaped, the control characters 0x08, 0x09, 0x0A, 0x0C, 0x0D get their
short escapes, the remaining control characters below 0x20 become
`\u00XX`, and every other character (including `#`) is emitted raw. -/
def escapeChar (c : Char) : List Char :=
  if c = '"' then ['\\', '"']
  else if c = '\\' then ['\\', '\\']
  else if c.toNat = 8 then ['\\', 'b']
  else if c.toNat = 9 then ['\\', 't']
  else if c.toNat = 10 then ['\\', 'n']
  else if c.toNat = 12 then ['\\', 'f']
  else if c.toNat = 13 then ['\\', 'r']
  else if c.toNat < 32 then ['\\', 'u', '0', '0', hexDig (c.toNat / 16), hexDig (c.toNat % 16)]
  else [c]

/-- `serde_json` escaping of a whole string body. -/
def escapeStr (s : Str) : List Char := (s.map escapeChar).flatten

/-- A JSON string literal: quote, escaped body, quote. -/
def jsonStr (s : Str) : List Char := '"' :: (escapeStr s ++ ['"'])

/-- Literal fragment `\x7b"Set":\x7b"key":` of the canonical encoding. -/
def setOpen : List Char := "\x7b\"Set\":\x7b\"key\":".toList

/-- Literal fragment `,"value":` of the canonical encoding. -/
def valueMid : List Char := ",\"value\":".toList

/-- Literal fragment `\x7b"Get":\x7b"key":` of the canonical encoding. -/
def getOpen : List Char := "\x7b\"Get\":\x7b\"key\":".toList

/-- Literal fragment `\x7b"Rm":\x7b"key":` of the canonical encoding. -/
def rmOpen : List Char := "\x7b\"Rm\":\x7b\"key\":".toList

/-- Literal fragment `\x7d\x7d` closing the two objects. -/
def objClose : List Char := "\x7d\x7d".toList

/-- `serde_json::to_writer` output for a `Command` (externally tagged). -/
def encodeCommand : Command → List Char
  | .Set k v => setOpen ++ jsonStr k ++ valueMid ++ jsonStr v ++ objClose
  | .Get k => getOpen ++ jsonStr k ++ objClose
  | .Rm k => rmOpen ++ jsonStr k ++ objClose

/-- Expect a literal fragment at the front of the input; return the rest. -/
def stripLit : List Char → List Char → Option (List Char)
  | [], s => some s
  | _ :: _, [] => none
  | c :: cs, d :: ds => if d = c then stripLit cs ds else none

/-- Value of a single-character JSON escape (`serde_json` accepts these). -/
def unescapeChar (e : Char) : Option Char :=
  if e = '"' then some '"'
  else if e = '\\' then some '\\'
  else if e = '/' then some '/'
  else if e = 'b' then some '\x08'
  else if e = 't' then some '\x09'
  else if e = 'n' then some '\x0a'
  else if e = 'f' then some '\x0c'
  else if e = 'r' then some '\x0d'
  else none

/-- Cons a character onto the string part of a parse result. -/
def mapCons (c : Char) : Option (Str × List Char) → Option (Str × List Char)
  | some (s, r) => some (c :: s, r)
  | none => none

/-- Parse the body of a JSON string literal (after the opening quote) up
to and including the closing quote, returning the decoded string and the
rest of the input.  Raw control characters are rejected, escapes are
decoded; a `\uXXXX` escape is decoded when it denotes a valid scalar
(the only `\u` escapes `serde_json` ever emits are `\u00XX`). -/
def parseStrBody : List Char → Option (Str × List Char)
  | [] => none
  | c :: rest =>
    if c = '"' then some ([], rest)
    else if c = '\\' then
      match rest with
      | [] => none
      | e :: rest2 =>
        if e = 'u' then
          match rest2 with
          | h1 :: h2 :: h3 :: h4 :: rest3 =>
            match hexVal h1, hexVal h2, hexVal h3, hexVal h4 with
            | some a, some b, some c3, some d =>
              let n := 4096 * a + 256 * b + 16 * c3 + d
              if n.isValidChar then mapCons (Char.ofNat n) (parseStrBody rest3)
              else none
            | _, _, _, _ => none
          | _ => none
        else
          match unescapeChar e with
          | some uc => mapCons uc (parseStrBody rest2)
          | none => none
    else if c.toNat < 32 then none
    else mapCons c (parseStrBody rest)

/-- Parse a JSON string literal including its opening quote. -/
def parseStrLit : List Char → Option (Str × List Char)
  | [] => none
  | c :: rest => if c = '"' then parseStrBody rest else none

/-- Parse one canonically encoded `Command` from the front of the input,
returning it together with the unconsumed rest. -/
def parseCommandAux (s : List Char) : Option (Command × List Char) :=
  match stripLit setOpen s with
  | some s1 =>
    match parseStrLit s1 with
    | some (k, s2) =>
      match stripLit valueMid s2 with
      | some s3 =>
        match parseStrLit s3 with
        | some (v, s4) =>
          match stripLit objClose s4 with
          | some s5 => some (.Set k v, s5)
          | none => none
        | none => none
      | none => none
    | none => none
  | none =>
    match stripLit getOpen s with
    | some s1 =>
      match parseStrLit s1 with
      | some (k, s2) =>
        match stripLit objClose s2 with
        | some s3 => some (.Get k, s3)
        | none => none
      | none => none
    | none =>
      match stripLit rmOpen s with
      | some s1 =>
        match parseStrLit s1 with
        | some (k, s2) =>
          match stripLit objClose s2 with
          | some s3 => some (.Rm k, s3)
          | none => none
        | none => none
      | none => none

/-- `serde_json::from_slice::<Command>`: the input must consist of exactly
one encoded command (the log and wire records the program reads carry no
surrounding whitespace). -/
def decodeCommand (s : List Char) : Option Command :=
  match parseCommandAux s with
  | some (c, []) => some c
  | _ => none

/-- `reader.read_until(b'#', ..)`: the bytes up to and including the first
`#`, or everything if there is none. -/
def readUntilHash : List Char → List Char
  | [] => []
  | c :: rest => if c = '#' then [c] else c :: readUntilHash rest

/-- `KvStore::read_command_from_reader`: seek to `pos`, read up to and
including the next `#`, pop the final byte, decode the remainder. -/
def read_command_from_reader (file : List Char) (pos : Nat) : Except Error Command :=
  match decodeCommand ((readUntilHash (file.drop pos)).dropLast) with
  | some c => .ok c
  | none => .error .SerdeJSONError

/-- `KvStore::read_command_from`: open segment `n` and read one record at
`pos`; a missing file is an I/O error. -/
def read_command_from (segments : List (List Char)) (n pos : Nat) : Except Error Command :=
  match segments[n]? with
  | some file => read_command_from_reader file pos
  | none => .error .IOError

/-- `KvStore::write_command_to_writer`: seek to the end, capture the
offset, append the encoded command and a `#`; return the offset. -/
def write_command_to_writer (file : List Char) (c : Command) : List Char × Nat :=
  (file ++ encodeCommand c ++ ['#'], file.length)

/-- The in-memory index, `HashMap<String, (u64, u64)>`; an association
list whose keys the engine keeps distinct. -/
abbrev Index := List (Str × (Nat × Nat))

/-- `HashMap::get`. -/
def idxGet : Index → Str → Option (Nat × Nat)
  | [], _ => none
  | (k', p) :: rest, k => if k' = k then some p else idxGet rest k

/-- `HashMap::remove`. -/
def idxRemove : Index → Str → Index
  | [], _ => []
  | (k', p) :: rest, k => if k' = k then idxRemove rest k else (k', p) :: idxRemove rest k

/-- `HashMap::insert` (replacing any previous binding of the key). -/
def idxInsert (idx : Index) (k : Str) (p : Nat × Nat) : Index :=
  (k, p) :: idxRemove idx k

/-- The `KvStoreState` struct: the on-disk segment files (position `i`
is `kvs.data.<i>`), the index, and the active segment id. -/
structure KvStoreState where
  segments : List (List Char)
  index : Index
  active_nth_file : Nat
deriving DecidableEq

/-- `SINGLE_FILE_SIZE`: 1 MiB segment threshold. -/
def SINGLE_FILE_SIZE : Nat := 1024 * 1024

/-- One step of `KvStore::compact`'s loop over the index entries, carrying
the content accumulated in the active writer and the index being rebuilt.
A failed read returns early, keeping the appends performed so far (the
Rust `?` drops the fresh index and leaves the files in place). -/
def compactGo (s : KvStoreState) : Index → List Char → Index → KvStoreState × Option Error
  | [], file, newIdx => (⟨[file], newIdx, 0⟩, none)
  | (k, (n, pos)) :: rest, file, newIdx =>
    if n < s.active_nth_file then
      match read_command_from s.segments n pos with
      | .error e => (⟨s.segments.set s.active_nth_file file, s.index, s.active_nth_file⟩, some e)
      | .ok cmd =>
        compactGo s rest (file ++ encodeCommand cmd ++ ['#'])
          (idxInsert newIdx k (0, file.length))
    else
      compactGo s rest file (idxInsert newIdx k (0, pos))

/-- `KvStore::compact`: rewrite the live record of every key whose entry
points below the active segment into the active writer, then delete the
old segments, rename the active segment to id 0 and install the rebuilt
index. -/
def compact (s : KvStoreState) : KvStoreState × Option Error :=
  compactGo s s.index (s.segments.getD s.active_nth_file []) []

/-- `KvStore::try_compact`: if the record offset exceeds the segment
threshold, roll over to a fresh active segment, then compact if the index
holds fewer than `active_id * 1024` entries. -/
def try_compact (last_pos : Nat) (s : KvStoreState) : KvStoreState × Option Error :=
  if last_pos > SINGLE_FILE_SIZE then
    let s1 : KvStoreState := ⟨s.segments ++ [[]], s.index, s.active_nth_file + 1⟩
    if s1.index.length < s1.active_nth_file * 1024 then compact s1
    else (s1, none)
  else (s, none)

/-- `KvsEngine::set` for `KvStore`: append a `Set` record to the active
segment, point the index at it, then `try_compact`. -/
def set (s : KvStoreState) (key value : Str) : KvStoreState × Option Error :=
  let file := s.segments.getD s.active_nth_file []
  let w := write_command_to_writer file (.Set key value)
  let s1 : KvStoreState :=
    ⟨s.segments.set s.active_nth_file w.1,
      idxInsert s.index key (s.active_nth_file, w.2), s.active_nth_file⟩
  try_compact w.2 s1

/-- `KvsEngine::get` for `KvStore`: look the key up, read the record the
entry points at, and return its value; a non-`Set` record is the
`ErrorLogMeet` internal fault. -/
def get (s : KvStoreState) (key : Str) : Except Error (Option Str) :=
  match idxGet s.index key with
  | some (n, pos) =>
    match read_command_from s.segments n pos with
    | .ok (.Set _ value) => .ok (some value)
    | .ok _ => .error .ErrorLogMeet
    | .error e => .error e
  | none => .ok none

/-- `KvsEngine::remove` for `KvStore`: fail with `KeyNotFound` when the
key is absent; otherwise append an `Rm` record, delete the index entry,
then `try_compact`. -/
def remove (s : KvStoreState) (key : Str) : KvStoreState × Option Error :=
  if (idxGet s.index key).isSome then
    let file := s.segments.getD s.active_nth_file []
    let w := write_command_to_writer file (.Rm key)
    let s1 : KvStoreState :=
      ⟨s.segments.set s.active_nth_file w.1, idxRemove s.index key, s.active_nth_file⟩
    try_compact w.2 s1
  else (s, some .KeyNotFound)

/-- `BufRead::split(b'#')` on a file's content: the chunks between `#`
delimiters, with no empty trailing chunk when the file ends with `#`. -/
def splitHash : List Char → List (List Char)
  | [] => []
  | c :: s =>
    if c = '#' then [] :: splitHash s
    else
      match splitHash s with
      | [] => [[c]]
      | chunk :: rest => (c :: chunk) :: rest

/-- The replay loop of `KvStore::open` over the chunks of one segment
file: track the running offset, insert on `Set`, delete on `Rm`, skip
anything else; a chunk that does not decode is a fatal `SerdeJSONError`. -/
def replayChunks (i : Nat) : List (List Char) → Nat → Index → Except Error (Index × Nat)
  | [], pos, idx => .ok (idx, pos)
  | chunk :: rest, pos, idx =>
    let next := pos + chunk.length + 1
    match decodeCommand chunk with
    | some (.Set k _) => replayChunks i rest next (idxInsert idx k (i, pos))
    | some (.Rm k) => replayChunks i rest next (idxRemove idx k)
    | some (.Get _) => replayChunks i rest next idx
    | none => .error .SerdeJSONError

/-- Replay of `KvStore::open` over the segment files in ascending id
order, numbering files from `i`. -/
def replayFiles : List (List Char) → Nat → Index → Except Error Index
  | [], _, idx => .ok idx
  | f :: rest, i, idx => do
    let r ← replayChunks i (splitHash f) 0 idx
    replayFiles rest (i + 1) r.1

/-- `KvStore::open` on a directory holding the given segment files: with
no files, start at segment 0 with an empty index (the append-mode open
creates `kvs.data.0`); otherwise replay every file in ascending order and
make the last file active. -/
def openStore (segments : List (List Char)) : Except Error KvStoreState :=
  match segments with
  | [] => .ok ⟨[[]], [], 0⟩
  | _ => do
    let index ← replayFiles segments 0 []
    .ok ⟨segments, index, segments.length - 1⟩

/-- The state `KvStore::open` produces on a fresh directory. -/
def emptyStore : KvStoreState := ⟨[[]], [], 0⟩

/-- States reachable through `open` on a fresh directory followed by any
invocations of `set` and `remove` (compaction happens inside their
`try_compact` calls); the post-state of a failing call is reachable too,
since the Rust code keeps the mutations performed before an early
return. -/
inductive Reach : KvStoreState → Prop where
  | init : Reach emptyStore
  | set_step (s : KvStoreState) (k v : Str) : Reach s → Reach (set s k v).1
  | rm_step (s : KvStoreState) (k : Str) : Reach s → Reach (remove s k).1

/-- Concatenation of encoded records, each with its `#` terminator: the
content a segment file accumulates. -/
def encodeLog (cmds : List Command) : List Char :=
  (cmds.map fun c => encodeCommand c ++ ['#']).flatten

/-- Hash-freeness of the strings carried by a command. -/
def cmdHashFree : Command → Prop
  | .Set k v => '#' ∉ k ∧ '#' ∉ v
  | .Get k => '#' ∉ k
  | .Rm k => '#' ∉ k

instance : DecidablePred cmdHashFree := fun c =>
  match c with
  | .Set k v => inferInstanceAs (Decidable ('#' ∉ k ∧ '#' ∉ v))
  | .Get k => inferInstanceAs (Decidable ('#' ∉ k))
  | .Rm k => inferInstanceAs (Decidable ('#' ∉ k))

/-- The reachable-state invariant: the directory is contiguous with the
last file active, index keys are distinct, every file is empty or
`#`-terminated, and every index entry points at a canonically encoded
`Set` record for its own key followed by the `#` terminator. -/
structure StoreInv (s : KvStoreState) : Prop where
  seg_len : s.segments.length = s.active_nth_file + 1
  nodup : (s.index.map Prod.fst).Nodup
  ends_hash : ∀ f ∈ s.segments, f = [] ∨ ∃ f0, f = f0 ++ ['#']
  entries : ∀ k n pos, idxGet s.index k = some (n, pos) →
    ∃ file v rest, s.segments[n]? = some file ∧
      file.drop pos = encodeCommand (.Set k v) ++ '#' :: rest

/-- The pure effect of replaying a list of commands: the index updates of
the replay loop together with the running offset. -/
def replayStep (i : Nat) (idx : Index) (pos : Nat) : Command → Index
  | .Set k _ => idxInsert idx k (i, pos)
  | .Rm k => idxRemove idx k
  | .Get _ => idx

def replayModel (i : Nat) : List Command → Nat → Index → Index × Nat
  | [], pos, idx => (idx, pos)
  | c :: cs, pos, idx =>
    replayModel i cs (pos + (encodeCommand c).length + 1) (replayStep i idx pos c)

/-- One engine client operation (the mutating API calls). -/
inductive EngineOp where
  | opSet (k v : Str)
  | opRm (k : Str)

/-- Run one engine operation on the store. -/
def applyOp (s : KvStoreState) : EngineOp → KvStoreState × Option Error
  | .opSet k v => set s k v
  | .opRm k => remove s k

/-- Run a sequence of engine operations, keeping each post-state. -/
def runOps (s : KvStoreState) : List EngineOp → KvStoreState
  | [] => s
  | op :: ops => runOps (applyOp s op).1 ops

/-- Whether an operation writes the given key. -/
def opTouches (k : Str) : EngineOp → Prop
  | .opSet k0 _ => k0 = k
  | .opRm k0 => k0 = k

instance (k : Str) : DecidablePred (opTouches k) := fun op =>
  match op with
  | .opSet k0 _ => inferInstanceAs (Decidable (k0 = k))
  | .opRm k0 => inferInstanceAs (Decidable (k0 = k))

/-- The entry the replay loop leaves for one fixed key after one file's
commands: `pos` is the running offset, `a` the entry accumulated so far. -/
def replayK (i : Nat) (k : Str) : List Command → Nat → Option (Nat × Nat) → Option (Nat × Nat)
  | [], _, a => a
  | c :: cs, pos, a =>
    replayK i k cs (pos + (encodeCommand c).length + 1)
      (match c with
       | .Set k0 _ => if k0 = k then some (i, pos) else a
       | .Rm k0 => if k0 = k then none else a
       | .Get _ => a)

/-- The entry the replay of a list of segment files leaves for one key. -/
def replayFilesK (k : Str) : List (List Command) → Nat → Option (Nat × Nat) → Option (Nat × Nat)
  | [], _, a => a
  | cs :: rest, i, a => replayFilesK k rest (i + 1) (replayK i k cs 0 a)

/-- Last-writer-wins answer of a command log for one key. -/
def logAnswer (k : Str) : List Command → Option Str → Option Str
  | [], a => a
  | .Set k0 v :: cs, a => logAnswer k cs (if k0 = k then some v else a)
  | .Rm k0 :: cs, a => logAnswer k cs (if k0 = k then none else a)
  | .Get _ :: cs, a => logAnswer k cs a

/-- The same log with the `Get` records deleted. -/
def removeGets : List Command → List Command
  | [] => []
  | .Get _ :: cs => removeGets cs
  | c :: cs => c :: removeGets cs

/-- The delimiter-free regime: the store is the image of per-file command
logs whose strings avoid `#`, and the index agrees pointwise with what
startup replay of those logs computes. -/
structure InvHF (cmdss : List (List Command)) (s : KvStoreState) : Prop where
  base : StoreInv s
  len : cmdss.length = s.active_nth_file + 1
  segs : s.segments = cmdss.map encodeLog
  hf : ∀ cs ∈ cmdss, ∀ c ∈ cs, cmdHashFree c
  agree : ∀ k, replayFilesK k cmdss 0 none = idxGet s.index k

/-- States reachable from a fresh directory through `set` and `remove`
calls whose key and value strings avoid the `#` delimiter. -/
inductive ReachHF : KvStoreState → Prop where
  | init : ReachHF emptyStore
  | set_step (s : KvStoreState) (k v : Str) :
      ReachHF s → '#' ∉ k → '#' ∉ v → ReachHF (set s k v).1
  | rm_step (s : KvStoreState) (k : Str) :
      ReachHF s → '#' ∉ k → ReachHF (remove s k).1

/-! ### Codec lemmas: the canonical encoding round-trips, extends, and is
prefix-free; hash-free strings encode without `#`. -/

theorem hexVal_hexDig : ∀ n : Nat, n < 16 → hexVal (hexDig n) = some n := by decide

theorem char_eq_ofNat {c : Char} {n : Nat} (h : c.toNat = n) : c = Char.ofNat n := by
  rw [← Char.ofNat_toNat c, h]

theorem parseStrBody_quote (rest : List Char) : parseStrBody ('"' :: rest) = some ([], rest) := by
  rw [parseStrBody.eq_def]; rfl

theorem parseStrBody_escQuote (rest : List Char) :
    parseStrBody ('\\' :: '"' :: rest) = mapCons '"' (parseStrBody rest) := by
  rw [parseStrBody.eq_def]; rfl

theorem parseStrBody_escBack (rest : List Char) :
    parseStrBody ('\\' :: '\\' :: rest) = mapCons '\\' (parseStrBody rest) := by
  rw [parseStrBody.eq_def]; rfl

theorem parseStrBody_escB (rest : List Char) :
    parseStrBody ('\\' :: 'b' :: rest) = mapCons '\x08' (parseStrBody rest) := by
  rw [parseStrBody.eq_def]; rfl

theorem parseStrBody_escT (rest : List Char) :
    parseStrBody ('\\' :: 't' :: rest) = mapCons '\x09' (parseStrBody rest) := by
  rw [parseStrBody.eq_def]; rfl

theorem parseStrBody_escN (rest : List Char) :
    parseStrBody ('\\' :: 'n' :: rest) = mapCons '\x0a' (parseStrBody rest) := by
  rw [parseStrBody.eq_def]; rfl

theorem parseStrBody_escF (rest : List Char) :
    parseStrBody ('\\' :: 'f' :: rest) = mapCons '\x0c' (parseStrBody rest) := by
  rw [parseStrBody.eq_def]; rfl

theorem parseStrBody_escR (rest : List Char) :
    parseStrBody ('\\' :: 'r' :: rest) = mapCons '\x0d' (parseStrBody rest) := by
  rw [parseStrBody.eq_def]; rfl

theorem parseStrBody_escU (h1 h2 h3 h4 : Char) (rest : List Char) :
    parseStrBody ('\\' :: 'u' :: h1 :: h2 :: h3 :: h4 :: rest) =
      (match hexVal h1, hexVal h2, hexVal h3, hexVal h4 with
       | some a, some b, some c3, some d =>
         if (4096 * a + 256 * b + 16 * c3 + d).isValidChar then
           mapCons (Char.ofNat (4096 * a + 256 * b + 16 * c3 + d)) (parseStrBody rest)
         else none
       | _, _, _, _ => none) := by
  rw [parseStrBody.eq_def]; rfl

theorem parseStrBody_other (c : Char) (rest : List Char) (hq : ¬ c = '"') (hb : ¬ c = '\\')
    (hc : ¬ c.toNat < 32) : parseStrBody (c :: rest) = mapCons c (parseStrBody rest) := by
  rw [parseStrBody.eq_def]
  simp only [if_neg hq, if_neg hb, if_neg hc]

theorem escapeChar_parse (c : Char) (tail : List Char) :
    parseStrBody (escapeChar c ++ tail) = mapCons c (parseStrBody tail) := by
  by_cases h1 : c = '"'
  · subst h1; exact parseStrBody_escQuote tail
  by_cases h2 : c = '\\'
  · subst h2; exact parseStrBody_escBack tail
  by_cases h3 : c.toNat = 8
  · rw [char_eq_ofNat h3]; exact parseStrBody_escB tail
  by_cases h4 : c.toNat = 9
  · rw [char_eq_ofNat h4]; exact parseStrBody_escT tail
  by_cases h5 : c.toNat = 10
  · rw [char_eq_ofNat h5]; exact parseStrBody_escN tail
  by_cases h6 : c.toNat = 12
  · rw [char_eq_ofNat h6]; exact parseStrBody_escF tail
  by_cases h7 : c.toNat = 13
  · rw [char_eq_ofNat h7]; exact parseStrBody_escR tail
  by_cases h8 : c.toNat < 32
  · have hdiv : c.toNat / 16 < 16 := by omega
    have hmod : c.toNat % 16 < 16 := by omega
    simp only [escapeChar, if_neg h1, if_neg h2, if_neg h3, if_neg h4, if_neg h5,
      if_neg h6, if_neg h7, if_pos h8, List.cons_append, List.nil_append]
    rw [parseStrBody_escU]
    rw [hexVal_hexDig _ hdiv, hexVal_hexDig _ hmod, show hexVal '0' = some 0 from rfl]
    have harith : 4096 * 0 + 256 * 0 + 16 * (c.toNat / 16) + c.toNat % 16 = c.toNat := by
      have := Nat.div_add_mod c.toNat 16; omega
    simp only [harith]
    have hval : (c.toNat).isValidChar := by left; omega
    rw [if_pos hval, ← char_eq_ofNat rfl]
  · simp only [escapeChar, if_neg h1, if_neg h2, if_neg h3, if_neg h4, if_neg h5,
      if_neg h6, if_neg h7, if_neg h8, List.cons_append, List.nil_append]
    exact parseStrBody_other c tail h1 h2 h8

theorem escapeStr_cons (c : Char) (s : Str) :
    escapeStr (c :: s) = escapeChar c ++ escapeStr s := by
  simp [escapeStr]

theorem parseStrBody_escapeStr (s : Str) (rest : List Char) :
    parseStrBody (escapeStr s ++ '"' :: rest) = some (s, rest) := by
  induction s with
  | nil => simpa [escapeStr] using parseStrBody_quote rest
  | cons c s ih =>
    rw [escapeStr_cons, List.append_assoc, escapeChar_parse, ih]
    rfl

theorem parseStrLit_cons (c : Char) (rest : List Char) :
    parseStrLit (c :: rest) = if c = '"' then parseStrBody rest else none := by
  rw [parseStrLit.eq_def]

theorem parseStrLit_jsonStr (s : Str) (rest : List Char) :
    parseStrLit (jsonStr s ++ rest) = some (s, rest) := by
  rw [jsonStr, List.cons_append, parseStrLit_cons, if_pos rfl, List.append_assoc,
    List.singleton_append]
  exact parseStrBody_escapeStr s rest

theorem stripLit_nil (s : List Char) : stripLit [] s = some s := rfl

theorem stripLit_cons_nil (c : Char) (cs : List Char) : stripLit (c :: cs) [] = none := by
  rw [stripLit.eq_def]

theorem stripLit_cons_cons (c d : Char) (cs ds : List Char) :
    stripLit (c :: cs) (d :: ds) = if d = c then stripLit cs ds else none := by
  rw [stripLit.eq_def]

theorem stripLit_self (lit s : List Char) : stripLit lit (lit ++ s) = some s := by
  induction lit with
  | nil => rfl
  | cons c cs ih => rw [List.cons_append, stripLit_cons_cons, if_pos rfl, ih]

theorem stripLit_extend {lit s r : List Char} (h : stripLit lit s = some r) (t : List Char) :
    stripLit lit (s ++ t) = some (r ++ t) := by
  induction lit generalizing s with
  | nil => rw [stripLit_nil] at h; cases h; rfl
  | cons c cs ih =>
    cases s with
    | nil => rw [stripLit_cons_nil] at h; cases h
    | cons d ds =>
      rw [stripLit_cons_cons] at h
      by_cases hd : d = c
      · rw [if_pos hd] at h
        rw [List.cons_append, stripLit_cons_cons, if_pos hd]
        exact ih h
      · rw [if_neg hd] at h; cases h

theorem stripLit_none_extend {lit s : List Char} (h : stripLit lit s = none)
    (hp : s.isPrefixOf lit = false) (t : List Char) : stripLit lit (s ++ t) = none := by
  induction lit generalizing s with
  | nil => rw [stripLit_nil] at h; cases h
  | cons c cs ih =>
    cases s with
    | nil => simp [List.isPrefixOf] at hp
    | cons d ds =>
      rw [stripLit_cons_cons] at h
      rw [List.cons_append, stripLit_cons_cons]
      by_cases hd : d = c
      · rw [if_pos hd] at h ⊢
        refine ih h ?_
        subst hd
        simpa [List.isPrefixOf] using hp
      · rw [if_neg hd]

theorem stripLit_some_eq {lit s r : List Char} (h : stripLit lit s = some r) : s = lit ++ r := by
  induction lit generalizing s with
  | nil => rw [stripLit_nil] at h; cases h; rfl
  | cons c cs ih =>
    cases s with
    | nil => rw [stripLit_cons_nil] at h; cases h
    | cons d ds =>
      rw [stripLit_cons_cons] at h
      by_cases hd : d = c
      · rw [if_pos hd] at h
        rw [List.cons_append, hd, ih h]
      · rw [if_neg hd] at h; cases h

theorem stripLit_set_of_get (x : List Char) : stripLit setOpen (getOpen ++ x) = none :=
  stripLit_none_extend (by decide) (by decide) x

theorem stripLit_set_of_rm (x : List Char) : stripLit setOpen (rmOpen ++ x) = none :=
  stripLit_none_extend (by decide) (by decide) x

theorem stripLit_get_of_rm (x : List Char) : stripLit getOpen (rmOpen ++ x) = none :=
  stripLit_none_extend (by decide) (by decide) x

theorem stripLit_get_of_set (x : List Char) : stripLit getOpen (setOpen ++ x) = none :=
  stripLit_none_extend (by decide) (by decide) x

theorem stripLit_rm_of_set (x : List Char) : stripLit rmOpen (setOpen ++ x) = none :=
  stripLit_none_extend (by decide) (by decide) x

theorem parseCommandAux_encode (c : Command) (rest : List Char) :
    parseCommandAux (encodeCommand c ++ rest) = some (c, rest) := by
  cases c with
  | Set k v =>
    rw [parseCommandAux, encodeCommand]
    rw [show setOpen ++ jsonStr k ++ valueMid ++ jsonStr v ++ objClose ++ rest =
      setOpen ++ (jsonStr k ++ (valueMid ++ (jsonStr v ++ (objClose ++ rest)))) by
        simp [List.append_assoc]]
    rw [stripLit_self]
    dsimp only
    rw [parseStrLit_jsonStr]
    dsimp only
    rw [stripLit_self]
    dsimp only
    rw [parseStrLit_jsonStr]
    dsimp only
    rw [stripLit_self]
  | Get k =>
    rw [parseCommandAux, encodeCommand]
    rw [show getOpen ++ jsonStr k ++ objClose ++ rest =
      getOpen ++ (jsonStr k ++ (objClose ++ rest)) by simp [List.append_assoc]]
    rw [stripLit_set_of_get, stripLit_self]
    dsimp only
    rw [parseStrLit_jsonStr]
    dsimp only
    rw [stripLit_self]
  | Rm k =>
    rw [parseCommandAux, encodeCommand]
    rw [show rmOpen ++ jsonStr k ++ objClose ++ rest =
      rmOpen ++ (jsonStr k ++ (objClose ++ rest)) by simp [List.append_assoc]]
    rw [stripLit_set_of_rm, stripLit_get_of_rm, stripLit_self]
    dsimp only
    rw [parseStrLit_jsonStr]
    dsimp only
    rw [stripLit_self]

theorem decode_encode (c : Command) : decodeCommand (encodeCommand c) = some c := by
  have h := parseCommandAux_encode c []
  rw [List.append_nil] at h
  rw [decodeCommand, h]



theorem parseStrBody_nil : parseStrBody [] = none := by rw [parseStrBody.eq_def]

theorem parseStrBody_backslash_nil : parseStrBody ['\\'] = none := by rw [parseStrBody.eq_def]; rfl

theorem parseStrBody_backslash (e : Char) (rest2 : List Char) (he : ¬ e = 'u') :
    parseStrBody ('\\' :: e :: rest2) =
      (match unescapeChar e with
       | some uc => mapCons uc (parseStrBody rest2)
       | none => none) := by
  have h0 : parseStrBody ('\\' :: e :: rest2) =
      if e = 'u' then
        (match rest2 with
         | h1 :: h2 :: h3 :: h4 :: rest3 =>
           (match hexVal h1, hexVal h2, hexVal h3, hexVal h4 with
            | some a, some b, some c3, some d =>
              if (4096 * a + 256 * b + 16 * c3 + d).isValidChar then
                mapCons (Char.ofNat (4096 * a + 256 * b + 16 * c3 + d)) (parseStrBody rest3)
              else none
            | _, _, _, _ => none)
         | _ => none)
      else
        (match unescapeChar e with
         | some uc => mapCons uc (parseStrBody rest2)
         | none => none) := by
    rw [parseStrBody.eq_def]; rfl
  rw [h0, if_neg he]

theorem parseStrBody_control (e : Char) (rest2 : List Char) (h1 : ¬ e = '"') (h2 : ¬ e = '\\')
    (h3 : e.toNat < 32) : parseStrBody (e :: rest2) = none := by
  rw [parseStrBody.eq_def]
  simp only [if_neg h1, if_neg h2, if_pos h3]

theorem mapCons_eq_some {c : Char} {o : Option (Str × List Char)} {a : Str} {r : List Char}
    (h : mapCons c o = some (a, r)) : ∃ s', o = some (s', r) ∧ a = c :: s' := by
  cases o with
  | none => simp [mapCons] at h
  | some pr =>
    obtain ⟨s', r'⟩ := pr
    rw [mapCons] at h
    injection h with h'
    rw [Prod.mk.injEq] at h'
    exact ⟨s', by rw [h'.2], h'.1.symm⟩

theorem parseStrBody_extend (t : List Char) :
    ∀ (s : List Char) (a : Str) (r : List Char), parseStrBody s = some (a, r) →
      parseStrBody (s ++ t) = some (a, r ++ t) := by
  intro s
  induction s using parseStrBody.induct with
  | case1 => intro a r h; rw [parseStrBody_nil] at h; cases h
  | case2 rest2 =>
    intro a r h
    rw [parseStrBody_quote] at h
    injection h with h'
    rw [Prod.mk.injEq] at h'
    obtain ⟨ha, hr⟩ := h'
    subst ha; subst hr
    rw [List.cons_append, parseStrBody_quote]
  | case3 hne => intro a r h; rw [parseStrBody_backslash_nil] at h; cases h
  | case4 h1 h2 h3 h4 rest3 a1 b1 c1 d1 hh4 hh3 hh2 hh1 n hval hne ih =>
    intro a r h
    rw [parseStrBody_escU, hh1, hh2, hh3, hh4] at h
    dsimp only at h
    rw [if_pos hval] at h
    obtain ⟨s', hp, rfl⟩ := mapCons_eq_some h
    simp only [List.cons_append]
    rw [parseStrBody_escU, hh1, hh2, hh3, hh4]
    dsimp only
    rw [if_pos hval, ih _ _ hp]
    rfl
  | case5 h1 h2 h3 h4 rest3 a1 b1 c1 d1 hh4 hh3 hh2 hh1 n hval hne =>
    intro a r h
    rw [parseStrBody_escU, hh1, hh2, hh3, hh4] at h
    dsimp only at h
    rw [if_neg hval] at h
    cases h
  | case6 h1 h2 h3 h4 rest3 hfail hne =>
    intro a r h
    rw [parseStrBody_escU] at h
    rcases hd1 : hexVal h1 with _ | a1
    · rw [hd1] at h; dsimp only at h; cases h
    rcases hd2 : hexVal h2 with _ | a2
    · rw [hd1, hd2] at h; dsimp only at h; cases h
    rcases hd3 : hexVal h3 with _ | a3
    · rw [hd1, hd2, hd3] at h; dsimp only at h; cases h
    rcases hd4 : hexVal h4 with _ | a4
    · rw [hd1, hd2, hd3, hd4] at h; dsimp only at h; cases h
    exact (hfail a1 a2 a3 a4 hd1 hd2 hd3 hd4).elim
  | case7 rest2 hshort hne =>
    intro a r h
    rcases rest2 with _ | ⟨x1, _ | ⟨x2, _ | ⟨x3, _ | ⟨x4, rest⟩⟩⟩⟩
    · rw [show parseStrBody ('\\' :: 'u' :: []) = none from by rw [parseStrBody.eq_def]; rfl] at h
      cases h
    · rw [show parseStrBody ('\\' :: 'u' :: [x1]) = none from by rw [parseStrBody.eq_def]; rfl] at h
      cases h
    · rw [show parseStrBody ('\\' :: 'u' :: [x1, x2]) = none from by
        rw [parseStrBody.eq_def]; rfl] at h
      cases h
    · rw [show parseStrBody ('\\' :: 'u' :: [x1, x2, x3]) = none from by
        rw [parseStrBody.eq_def]; rfl] at h
      cases h
    · exact (hshort x1 x2 x3 x4 rest rfl).elim
  | case8 e rest2 hne uc hu hbs ih =>
    intro a r h
    rw [parseStrBody_backslash e rest2 hne, hu] at h
    dsimp only at h
    obtain ⟨s', hp, rfl⟩ := mapCons_eq_some h
    simp only [List.cons_append]
    rw [parseStrBody_backslash e (rest2 ++ t) hne, hu]
    dsimp only
    rw [ih _ _ hp]
    rfl
  | case9 e rest2 hne hu hbs =>
    intro a r h
    rw [parseStrBody_backslash e rest2 hne, hu] at h
    dsimp only at h
    cases h
  | case10 e rest2 h1 h2 h3 =>
    intro a r h
    rw [parseStrBody_control e rest2 h1 h2 h3] at h
    cases h
  | case11 e rest2 h1 h2 h3 ih =>
    intro a r h
    rw [parseStrBody_other e rest2 h1 h2 h3] at h
    obtain ⟨s', hp, rfl⟩ := mapCons_eq_some h
    rw [List.cons_append, parseStrBody_other e (rest2 ++ t) h1 h2 h3, ih _ _ hp]
    rfl



theorem parseStrLit_extend {s : List Char} {a : Str} {r : List Char} (t : List Char)
    (h : parseStrLit s = some (a, r)) : parseStrLit (s ++ t) = some (a, r ++ t) := by
  cases s with
  | nil => rw [show parseStrLit [] = none from rfl] at h; cases h
  | cons c rest =>
    rw [parseStrLit_cons] at h
    by_cases hc : c = '"'
    · rw [if_pos hc] at h
      rw [List.cons_append, parseStrLit_cons, if_pos hc]
      exact parseStrBody_extend t rest a r h
    · rw [if_neg hc] at h; cases h

theorem parseCommandAux_extend {s : List Char} {c : Command} {r : List Char} (t : List Char)
    (h : parseCommandAux s = some (c, r)) : parseCommandAux (s ++ t) = some (c, r ++ t) := by
  rw [parseCommandAux] at h
  rcases hset : stripLit setOpen s with _ | s1
  case some =>
    rw [hset] at h
    dsimp only at h
    rcases hk : parseStrLit s1 with _ | ⟨k, s2⟩
    · rw [hk] at h; dsimp only at h; cases h
    rw [hk] at h; dsimp only at h
    rcases hm : stripLit valueMid s2 with _ | s3
    · rw [hm] at h; dsimp only at h; cases h
    rw [hm] at h; dsimp only at h
    rcases hv : parseStrLit s3 with _ | ⟨v, s4⟩
    · rw [hv] at h; dsimp only at h; cases h
    rw [hv] at h; dsimp only at h
    rcases hcl : stripLit objClose s4 with _ | s5
    · rw [hcl] at h; dsimp only at h; cases h
    rw [hcl] at h; dsimp only at h
    injection h with h'
    rw [Prod.mk.injEq] at h'
    obtain ⟨hc, hr⟩ := h'
    subst hc; subst hr
    obtain rfl := stripLit_some_eq hset
    rw [parseCommandAux, List.append_assoc, stripLit_self]
    dsimp only
    rw [parseStrLit_extend t hk]
    dsimp only
    rw [stripLit_extend hm t]
    dsimp only
    rw [parseStrLit_extend t hv]
    dsimp only
    rw [stripLit_extend hcl t]
  case none =>
    rw [hset] at h
    dsimp only at h
    rcases hget : stripLit getOpen s with _ | s1
    case some =>
      rw [hget] at h
      dsimp only at h
      rcases hk : parseStrLit s1 with _ | ⟨k, s2⟩
      · rw [hk] at h; dsimp only at h; cases h
      rw [hk] at h; dsimp only at h
      rcases hcl : stripLit objClose s2 with _ | s3
      · rw [hcl] at h; dsimp only at h; cases h
      rw [hcl] at h; dsimp only at h
      injection h with h'
      rw [Prod.mk.injEq] at h'
      obtain ⟨hc, hr⟩ := h'
      subst hc; subst hr
      obtain rfl := stripLit_some_eq hget
      rw [parseCommandAux, List.append_assoc, stripLit_set_of_get, stripLit_self]
      dsimp only
      rw [parseStrLit_extend t hk]
      dsimp only
      rw [stripLit_extend hcl t]
    case none =>
      rw [hget] at h
      dsimp only at h
      rcases hrm : stripLit rmOpen s with _ | s1
      case none => rw [hrm] at h; dsimp only at h; cases h
      rw [hrm] at h
      dsimp only at h
      rcases hk : parseStrLit s1 with _ | ⟨k, s2⟩
      · rw [hk] at h; dsimp only at h; cases h
      rw [hk] at h; dsimp only at h
      rcases hcl : stripLit objClose s2 with _ | s3
      · rw [hcl] at h; dsimp only at h; cases h
      rw [hcl] at h; dsimp only at h
      injection h with h'
      rw [Prod.mk.injEq] at h'
      obtain ⟨hc, hr⟩ := h'
      subst hc; subst hr
      obtain rfl := stripLit_some_eq hrm
      rw [parseCommandAux, List.append_assoc, stripLit_set_of_rm, stripLit_get_of_rm,
        stripLit_self]
      dsimp only
      rw [parseStrLit_extend t hk]
      dsimp only
      rw [stripLit_extend hcl t]

theorem decodeCommand_eq_some {s : List Char} {c : Command} (h : decodeCommand s = some c) :
    parseCommandAux s = some (c, []) := by
  rw [decodeCommand] at h
  rcases hp : parseCommandAux s with _ | ⟨c', r⟩
  · rw [hp] at h; cases h
  · rw [hp] at h
    cases r with
    | nil => dsimp only at h; injection h with h'; subst h'; rfl
    | cons x xs => dsimp only at h; cases h

theorem decode_of_proper_head {x t : List Char} {c : Command} (ht : t ≠ [])
    (hx : x ++ t = encodeCommand c) : decodeCommand x = none := by
  rcases hd : decodeCommand x with _ | c'
  · rfl
  · have h1 : parseCommandAux x = some (c', []) := decodeCommand_eq_some hd
    have h2 : parseCommandAux (x ++ t) = some (c', [] ++ t) := parseCommandAux_extend t h1
    rw [hx] at h2
    have h3 := parseCommandAux_encode c []
    rw [List.append_nil] at h3
    rw [h3] at h2
    injection h2 with h'
    rw [Prod.mk.injEq] at h'
    have h4 := h'.2
    rw [List.nil_append] at h4
    exact (ht h4.symm).elim




theorem hexDig_ne_hash (n : Nat) : hexDig n ≠ '#' := by
  unfold hexDig
  split <;> decide

theorem hash_notMem_escapeChar {c : Char} (h : c ≠ '#') : '#' ∉ escapeChar c := by
  unfold escapeChar
  split
  · decide
  split
  · decide
  split
  · decide
  split
  · decide
  split
  · decide
  split
  · decide
  split
  · decide
  split
  · intro hm
    simp only [List.mem_cons, List.not_mem_nil, or_false] at hm
    rcases hm with hm | hm | hm | hm | hm | hm
    · exact absurd hm (by decide)
    · exact absurd hm (by decide)
    · exact absurd hm (by decide)
    · exact absurd hm (by decide)
    · exact hexDig_ne_hash _ hm.symm
    · exact hexDig_ne_hash _ hm.symm
  · intro hm
    simp only [List.mem_cons, List.not_mem_nil, or_false] at hm
    exact h hm.symm

theorem hash_notMem_escapeStr {s : Str} (h : '#' ∉ s) : '#' ∉ escapeStr s := by
  induction s with
  | nil => simp [escapeStr]
  | cons c cs ih =>
    rw [escapeStr_cons]
    intro hm
    rcases List.mem_append.mp hm with hm | hm
    · exact hash_notMem_escapeChar (fun he => h (he ▸ List.mem_cons_self c cs)) hm
    · exact ih (fun hx => h (List.mem_cons_of_mem c hx)) hm

theorem hash_notMem_jsonStr {s : Str} (h : '#' ∉ s) : '#' ∉ jsonStr s := by
  rw [jsonStr]
  intro hm
  rcases List.mem_cons.mp hm with hm | hm
  · exact absurd hm (by decide)
  rcases List.mem_append.mp hm with hm | hm
  · exact hash_notMem_escapeStr h hm
  · exact absurd hm (by decide)

theorem hash_notMem_encode {c : Command} (h : cmdHashFree c) : '#' ∉ encodeCommand c := by
  cases c with
  | Set k v =>
    obtain ⟨hk, hv⟩ := h
    rw [encodeCommand]
    intro hm
    rcases List.mem_append.mp hm with hm | hm
    rotate_left
    · exact absurd hm (by decide)
    rcases List.mem_append.mp hm with hm | hm
    rotate_left
    · exact hash_notMem_jsonStr hv hm
    rcases List.mem_append.mp hm with hm | hm
    rotate_left
    · exact absurd hm (by decide)
    rcases List.mem_append.mp hm with hm | hm
    · exact absurd hm (by decide)
    · exact hash_notMem_jsonStr hk hm
  | Get k =>
    rw [encodeCommand]
    intro hm
    rcases List.mem_append.mp hm with hm | hm
    rotate_left
    · exact absurd hm (by decide)
    rcases List.mem_append.mp hm with hm | hm
    · exact absurd hm (by decide)
    · exact hash_notMem_jsonStr h hm
  | Rm k =>
    rw [encodeCommand]
    intro hm
    rcases List.mem_append.mp hm with hm | hm
    rotate_left
    · exact absurd hm (by decide)
    rcases List.mem_append.mp hm with hm | hm
    · exact absurd hm (by decide)
    · exact hash_notMem_jsonStr h hm



theorem decode_of_proper_prefix {x t : List Char} {c : Command} (ht : t ≠ [])
    (hx : decodeCommand (x ++ t) = some c) : decodeCommand x = none := by
  rcases hd : decodeCommand x with _ | c'
  · rfl
  · have h1 : parseCommandAux x = some (c', []) := decodeCommand_eq_some hd
    have h2 : parseCommandAux (x ++ t) = some (c', [] ++ t) := parseCommandAux_extend t h1
    rw [decodeCommand_eq_some hx] at h2
    injection h2 with h'
    rw [Prod.mk.injEq] at h'
    have h4 := h'.2
    rw [List.nil_append] at h4
    exact (ht h4.symm).elim

theorem readUntilHash_no_hash {xs : List Char} (h : '#' ∉ xs) (ys : List Char) :
    readUntilHash (xs ++ ys) = xs ++ readUntilHash ys := by
  induction xs with
  | nil => rfl
  | cons c cs ih =>
    have hc' : ¬ c = '#' := by
      intro hc
      exact h (by rw [hc]; exact List.mem_cons_self '#' cs)
    rw [List.cons_append, readUntilHash, if_neg hc', List.cons_append,
      ih (fun hx => h (List.mem_cons_of_mem c hx))]

theorem readUntilHash_hash (ys : List Char) : readUntilHash ('#' :: ys) = ['#'] := by
  rw [readUntilHash, if_pos rfl]

theorem hash_split {xs : List Char} (h : '#' ∈ xs) :
    ∃ p t, xs = p ++ '#' :: t ∧ '#' ∉ p := by
  induction xs with
  | nil => cases h
  | cons c cs ih =>
    by_cases hc : c = '#'
    · exact ⟨[], cs, by rw [hc]; rfl, by simp⟩
    · have hm : '#' ∈ cs := by
        rcases List.mem_cons.mp h with hm | hm
        · exact (hc hm.symm).elim
        · exact hm
      obtain ⟨p, t, hpt, hp⟩ := ih hm
      exact ⟨c :: p, t, by rw [hpt]; rfl, by
        intro hx
        rcases List.mem_cons.mp hx with hx | hx
        · exact hc hx.symm
        · exact hp hx⟩

/-- Reading one record from a position whose suffix begins with a decodable
chunk followed by `#`: the read returns the decoded command when the chunk
is free of `#`, and a `SerdeJSONError` when the chunk itself contains the
delimiter (the read stops early and no proper prefix decodes). -/
theorem read_at_region {file : List Char} {pos : Nat} {chunk rest : List Char} {c : Command}
    (hdrop : file.drop pos = chunk ++ '#' :: rest) (hdec : decodeCommand chunk = some c) :
    read_command_from_reader file pos =
      if '#' ∈ chunk then .error .SerdeJSONError else .ok c := by
  rw [read_command_from_reader, hdrop]
  by_cases hm : '#' ∈ chunk
  · obtain ⟨p, t, hpt, hp⟩ := hash_split hm
    rw [hpt, List.append_assoc, List.cons_append, readUntilHash_no_hash hp,
      readUntilHash_hash, List.dropLast_concat]
    have hnone : decodeCommand p = none := by
      refine decode_of_proper_prefix (t := '#' :: t) (c := c) (by simp) ?_
      rw [← hpt]; exact hdec
    rw [hnone]
    dsimp only
    rw [if_pos (by rw [← hpt]; exact hm)]
  · rw [readUntilHash_no_hash hm, readUntilHash_hash, List.dropLast_concat, hdec, if_neg hm]


/-- A region that sits in a file survives appending to the file. -/
theorem drop_append_region {file extra : List Char} {pos : Nat} {chunk rest : List Char}
    (hdrop : file.drop pos = chunk ++ '#' :: rest) :
    (file ++ extra).drop pos = chunk ++ '#' :: (rest ++ extra) := by
  have hlt : pos ≤ file.length := by
    by_contra hge
    have : file.drop pos = [] := List.drop_eq_nil_of_le (by omega)
    rw [this] at hdrop
    exact absurd hdrop.symm (by simp)
  rw [List.drop_append_of_le_length hlt, hdrop, List.append_assoc, List.cons_append]



theorem idxGet_cons (k' : Str) (p : Nat × Nat) (rest : Index) (k : Str) :
    idxGet ((k', p) :: rest) k = if k' = k then some p else idxGet rest k := by
  rw [idxGet.eq_def]

theorem idxRemove_cons (k' : Str) (p : Nat × Nat) (rest : Index) (k : Str) :
    idxRemove ((k', p) :: rest) k =
      if k' = k then idxRemove rest k else (k', p) :: idxRemove rest k := by
  rw [idxRemove.eq_def]

theorem idxGet_remove_self (idx : Index) (k : Str) : idxGet (idxRemove idx k) k = none := by
  induction idx with
  | nil => rfl
  | cons e rest ih =>
    obtain ⟨k', p⟩ := e
    rw [idxRemove_cons]
    by_cases h : k' = k
    · rw [if_pos h]; exact ih
    · rw [if_neg h, idxGet_cons, if_neg h]; exact ih

theorem idxGet_remove_ne (idx : Index) {k k' : Str} (h : k' ≠ k) :
    idxGet (idxRemove idx k) k' = idxGet idx k' := by
  induction idx with
  | nil => rfl
  | cons e rest ih =>
    obtain ⟨k0, p⟩ := e
    rw [idxRemove_cons, idxGet_cons]
    by_cases h0 : k0 = k
    · rw [if_pos h0, if_neg (show ¬ k0 = k' by rw [h0]; exact fun he => h he.symm)]
      exact ih
    · rw [if_neg h0, idxGet_cons]
      by_cases h1 : k0 = k'
      · rw [if_pos h1, if_pos h1]
      · rw [if_neg h1, if_neg h1]; exact ih

theorem idxGet_insert_self (idx : Index) (k : Str) (p : Nat × Nat) :
    idxGet (idxInsert idx k p) k = some p := by
  rw [idxInsert, idxGet_cons, if_pos rfl]

theorem idxGet_insert_ne (idx : Index) {k k' : Str} (p : Nat × Nat) (h : k' ≠ k) :
    idxGet (idxInsert idx k p) k' = idxGet idx k' := by
  rw [idxInsert, idxGet_cons, if_neg (fun he => h he.symm), idxGet_remove_ne idx h]

theorem keys_remove_sub (idx : Index) (k : Str) :
    ∀ x ∈ (idxRemove idx k).map Prod.fst, x ∈ idx.map Prod.fst := by
  induction idx with
  | nil =>
    intro x hx
    rw [show idxRemove [] k = [] from rfl] at hx
    simp at hx
  | cons e rest ih =>
    obtain ⟨k0, p⟩ := e
    intro x hx
    rw [idxRemove_cons] at hx
    by_cases h0 : k0 = k
    · rw [if_pos h0] at hx
      exact List.mem_cons_of_mem _ (ih x hx)
    · rw [if_neg h0] at hx
      rcases List.mem_cons.mp hx with hx | hx
      · exact hx ▸ List.mem_cons_self _ _
      · exact List.mem_cons_of_mem _ (ih x hx)

theorem keys_remove_nodup {idx : Index} (h : (idx.map Prod.fst).Nodup) (k : Str) :
    ((idxRemove idx k).map Prod.fst).Nodup := by
  induction idx with
  | nil => exact h
  | cons e rest ih =>
    obtain ⟨k0, p⟩ := e
    rw [List.map_cons, List.nodup_cons] at h
    rw [idxRemove_cons]
    by_cases h0 : k0 = k
    · rw [if_pos h0]; exact ih h.2
    · rw [if_neg h0, List.map_cons, List.nodup_cons]
      exact ⟨fun hx => h.1 (keys_remove_sub rest k _ hx), ih h.2⟩

theorem notMem_keys_remove_self (idx : Index) (k : Str) :
    k ∉ (idxRemove idx k).map Prod.fst := by
  induction idx with
  | nil =>
    rw [show idxRemove [] k = [] from rfl]
    simp
  | cons e rest ih =>
    obtain ⟨k0, p⟩ := e
    rw [idxRemove_cons]
    by_cases h0 : k0 = k
    · rw [if_pos h0]; exact ih
    · rw [if_neg h0, List.map_cons]
      intro hx
      rcases List.mem_cons.mp hx with hx | hx
      · exact h0 hx.symm
      · exact ih hx

theorem keys_insert_nodup {idx : Index} (h : (idx.map Prod.fst).Nodup) (k : Str)
    (p : Nat × Nat) : ((idxInsert idx k p).map Prod.fst).Nodup := by
  rw [idxInsert, List.map_cons, List.nodup_cons]
  exact ⟨notMem_keys_remove_self idx k, keys_remove_nodup h k⟩

theorem idxGet_eq_none_iff (idx : Index) (k : Str) :
    idxGet idx k = none ↔ k ∉ idx.map Prod.fst := by
  induction idx with
  | nil => simp [idxGet]
  | cons e rest ih =>
    obtain ⟨k0, p⟩ := e
    rw [idxGet_cons, List.map_cons]
    by_cases h0 : k0 = k
    · rw [if_pos h0]
      simp [h0]
    · rw [if_neg h0]
      rw [List.mem_cons]
      constructor
      · intro hn hx
        rcases hx with hx | hx
        · exact h0 hx.symm
        · exact (ih.mp hn) hx
      · intro hx
        exact ih.mpr (fun hm => hx (Or.inr hm))

theorem idxGet_of_mem {idx : Index} {k : Str} {e : Nat × Nat}
    (hm : (k, e) ∈ idx) (hnd : (idx.map Prod.fst).Nodup) : idxGet idx k = some e := by
  induction idx with
  | nil => cases hm
  | cons e0 rest ih =>
    obtain ⟨k0, p⟩ := e0
    rw [List.map_cons, List.nodup_cons] at hnd
    rw [idxGet_cons]
    rcases List.mem_cons.mp hm with hm | hm
    · injection hm with h1 h2
      rw [if_pos h1.symm, h2]
    · by_cases h0 : k0 = k
      · refine absurd ?_ hnd.1
        rw [h0]
        exact List.mem_map.mpr ⟨(k, e), hm, rfl⟩
      · rw [if_neg h0]
        exact ih hm hnd.2

theorem mem_of_idxGet {idx : Index} {k : Str} {e : Nat × Nat}
    (h : idxGet idx k = some e) : (k, e) ∈ idx := by
  induction idx with
  | nil => cases h
  | cons e0 rest ih =>
    obtain ⟨k0, p⟩ := e0
    rw [idxGet_cons] at h
    by_cases h0 : k0 = k
    · rw [if_pos h0] at h
      injection h with h1
      exact h0 ▸ h1 ▸ List.mem_cons_self _ _
    · rw [if_neg h0] at h
      exact List.mem_cons_of_mem _ (ih h)




theorem read_eval {segs : List (List Char)} {n pos : Nat} {file : List Char} {k v : Str}
    {rest : List Char} (hfile : segs[n]? = some file)
    (hdrop : file.drop pos = encodeCommand (.Set k v) ++ '#' :: rest) :
    read_command_from segs n pos =
      if '#' ∈ encodeCommand (.Set k v) then .error .SerdeJSONError
      else .ok (.Set k v) := by
  unfold read_command_from
  rw [hfile]
  exact read_at_region hdrop (decode_encode _)

theorem get_absent {s : KvStoreState} {k : Str} (h : idxGet s.index k = none) :
    get s k = .ok none := by
  unfold get
  rw [h]

theorem get_eval {s : KvStoreState} {k : Str} {n pos : Nat} {file : List Char} {v : Str}
    {rest : List Char} (hidx : idxGet s.index k = some (n, pos))
    (hfile : s.segments[n]? = some file)
    (hdrop : file.drop pos = encodeCommand (.Set k v) ++ '#' :: rest) :
    get s k = if '#' ∈ encodeCommand (.Set k v) then .error .SerdeJSONError
      else .ok (some v) := by
  unfold get
  rw [hidx]
  dsimp only
  rw [read_eval hfile hdrop]
  by_cases hm : '#' ∈ encodeCommand (.Set k v)
  · rw [if_pos hm, if_pos hm]
  · rw [if_neg hm, if_neg hm]

theorem get_no_logMeet {s : KvStoreState} (hInv : StoreInv s) (k : Str) :
    get s k ≠ .error .ErrorLogMeet := by
  rcases hidx : idxGet s.index k with _ | ⟨n, pos⟩
  · rw [get_absent hidx]; intro h; cases h
  · obtain ⟨file, v, rest, hfile, hdrop⟩ := hInv.entries k n pos hidx
    rw [get_eval hidx hfile hdrop]
    by_cases hm : '#' ∈ encodeCommand (.Set k v)
    · rw [if_pos hm]; intro h; cases h
    · rw [if_neg hm]; intro h; cases h

theorem entries_append_active {s : KvStoreState} (hInv : StoreInv s) (extra : List Char) :
    ∀ k n pos, idxGet s.index k = some (n, pos) →
      ∃ file v rest,
        (s.segments.set s.active_nth_file
          (s.segments.getD s.active_nth_file [] ++ extra))[n]? = some file ∧
        file.drop pos = encodeCommand (.Set k v) ++ '#' :: rest := by
  intro k n pos hidx
  obtain ⟨file, v, rest, hfile, hdrop⟩ := hInv.entries k n pos hidx
  by_cases hn : n = s.active_nth_file
  · have hlt : s.active_nth_file < s.segments.length := by
      rw [hInv.seg_len]; omega
    have hgd : s.segments.getD s.active_nth_file [] = file := by
      rw [List.getD_eq_getElem?_getD, ← hn, hfile]; rfl
    refine ⟨file ++ extra, v, rest ++ extra, ?_, ?_⟩
    · rw [hn, List.getElem?_set_self hlt, hgd]
    · exact drop_append_region hdrop
  · exact ⟨file, v, rest, by rw [List.getElem?_set_ne (fun he => hn he.symm)]; exact hfile, hdrop⟩

theorem get_append_active {s : KvStoreState} (hInv : StoreInv s) (extra : List Char) :
    ∀ k, get (⟨s.segments.set s.active_nth_file
        (s.segments.getD s.active_nth_file [] ++ extra), s.index,
        s.active_nth_file⟩ : KvStoreState) k = get s k := by
  intro k
  rcases hidx : idxGet s.index k with _ | ⟨n, pos⟩
  · have h1 := get_absent (s := ⟨s.segments.set s.active_nth_file
      (s.segments.getD s.active_nth_file [] ++ extra), s.index, s.active_nth_file⟩) hidx
    rw [h1, get_absent hidx]
  · obtain ⟨file, v, rest, hfile, hdrop⟩ := hInv.entries k n pos hidx
    by_cases hn : n = s.active_nth_file
    · have hlt : s.active_nth_file < s.segments.length := by
        rw [hInv.seg_len]; omega
      have hgd : s.segments.getD s.active_nth_file [] = file := by
        rw [List.getD_eq_getElem?_getD, ← hn, hfile]; rfl
      have hfile' : (s.segments.set s.active_nth_file
          (s.segments.getD s.active_nth_file [] ++ extra))[n]? = some (file ++ extra) := by
        rw [hn, List.getElem?_set_self hlt, hgd]
      have h1 := get_eval (s := ⟨s.segments.set s.active_nth_file
          (s.segments.getD s.active_nth_file [] ++ extra), s.index, s.active_nth_file⟩)
        hidx hfile' (drop_append_region hdrop)
      rw [h1, get_eval hidx hfile hdrop]
    · have hfile' : (s.segments.set s.active_nth_file
          (s.segments.getD s.active_nth_file [] ++ extra))[n]? = some file := by
        rw [List.getElem?_set_ne (fun he => hn he.symm)]; exact hfile
      have h1 := get_eval (s := ⟨s.segments.set s.active_nth_file
          (s.segments.getD s.active_nth_file [] ++ extra), s.index, s.active_nth_file⟩)
        hidx hfile' hdrop
      rw [h1, get_eval hidx hfile hdrop]



theorem compactGo_nil (s : KvStoreState) (file : List Char) (newIdx : Index) :
    compactGo s [] file newIdx = (⟨[file], newIdx, 0⟩, none) := by
  rw [compactGo.eq_def]

theorem compactGo_cons (s : KvStoreState) (k : Str) (n pos : Nat) (rest : Index)
    (file : List Char) (newIdx : Index) :
    compactGo s ((k, (n, pos)) :: rest) file newIdx =
      if n < s.active_nth_file then
        match read_command_from s.segments n pos with
        | .error e =>
          (⟨s.segments.set s.active_nth_file file, s.index, s.active_nth_file⟩, some e)
        | .ok cmd =>
          compactGo s rest (file ++ encodeCommand cmd ++ ['#'])
            (idxInsert newIdx k (0, file.length))
      else compactGo s rest file (idxInsert newIdx k (0, pos)) := by
  rw [compactGo.eq_def]

theorem encodeLog_nil : encodeLog [] = [] := rfl

theorem encodeLog_append (c1 c2 : List Command) :
    encodeLog (c1 ++ c2) = encodeLog c1 ++ encodeLog c2 := by
  simp [encodeLog]

theorem encodeLog_cons (c : Command) (cs : List Command) :
    encodeLog (c :: cs) = encodeCommand c ++ '#' :: encodeLog cs := by
  simp [encodeLog]

theorem encodeLog_singleton (c : Command) :
    encodeLog [c] = encodeCommand c ++ ['#'] := by
  simp [encodeLog]

/-- Main specification of the `compact` loop: processing any suffix of the
index preserves every `get` answer, preserves the store invariant (also on
the early-error path), and on success produces the single renumbered
segment 0 whose appended records are exactly tracked with their offsets. -/
theorem compactGo_spec (s : KvStoreState) (hInv : StoreInv s) :
    ∀ (es : Index) (file : List Char) (newIdx : Index) (recs : List (Str × Str)),
    (∀ k e, (k, e) ∈ es → idxGet s.index k = some e) →
    ((es.map Prod.fst).Nodup) →
    (∀ k n pos, (k, (n, pos)) ∈ es →
      n < s.segments.length ∧
      ∃ v rest,
        (if n < s.active_nth_file then (s.segments.getD n []).drop pos
         else file.drop pos) = encodeCommand (.Set k v) ++ '#' :: rest ∧
        (if '#' ∈ encodeCommand (.Set k v) then
          (Except.error Error.SerdeJSONError : Except Error (Option Str))
         else Except.ok (some v)) = get s k) →
    (∀ k, k ∈ es.map Prod.fst → idxGet newIdx k = none) →
    (∀ k z pos, idxGet newIdx k = some (z, pos) → z = 0 ∧
      ∃ v rest, file.drop pos = encodeCommand (.Set k v) ++ '#' :: rest ∧
        (if '#' ∈ encodeCommand (.Set k v) then
          (Except.error Error.SerdeJSONError : Except Error (Option Str))
         else Except.ok (some v)) = get s k) →
    (∀ k e, idxGet s.index k = some e → (k, e) ∈ es ∨ idxGet newIdx k ≠ none) →
    ((newIdx.map Prod.fst).Nodup) →
    (file = [] ∨ ∃ f0, file = f0 ++ ['#']) →
    (file = s.segments.getD s.active_nth_file [] ++
      encodeLog (recs.map fun r => Command.Set r.1 r.2)) →
    (∀ j (hj : j < recs.length),
      idxGet newIdx (recs.get ⟨j, hj⟩).1 =
        some (0, (s.segments.getD s.active_nth_file []).length +
          (encodeLog ((recs.take j).map fun r => Command.Set r.1 r.2)).length)) →
    (∀ k, idxGet newIdx k ≠ none → k ∈ recs.map Prod.fst ∨
      ∃ n pos, idxGet s.index k = some (n, pos) ∧ ¬ n < s.active_nth_file) →
    (∀ k, get (compactGo s es file newIdx).1 k = get s k) ∧
    StoreInv (compactGo s es file newIdx).1 ∧
    ((compactGo s es file newIdx).2 = none →
      ∃ (fileF : List Char) (newIdxF : Index) (recsF : List (Str × Str)),
        (compactGo s es file newIdx).1 = ⟨[fileF], newIdxF, 0⟩ ∧
        fileF = s.segments.getD s.active_nth_file [] ++
          encodeLog (recsF.map fun r => Command.Set r.1 r.2) ∧
        (∀ j (hj : j < recsF.length),
          idxGet newIdxF (recsF.get ⟨j, hj⟩).1 =
            some (0, (s.segments.getD s.active_nth_file []).length +
              (encodeLog ((recsF.take j).map fun r => Command.Set r.1 r.2)).length)) ∧
        (∀ k z pos, idxGet newIdxF k = some (z, pos) → z = 0) ∧
        (∀ k, idxGet newIdxF k ≠ none → k ∈ recsF.map Prod.fst ∨
          ∃ n pos, idxGet s.index k = some (n, pos) ∧ ¬ n < s.active_nth_file)) := by
  intro es
  induction es with
  | nil =>
    intro file newIdx recs hes hesnd hes2 hdisj hnew hcov hnewnd hfend hrfile hrpt hkeep
    rw [compactGo_nil]
    refine ⟨?_, ?_, ?_⟩
    · intro k
      rcases hidx : idxGet newIdx k with _ | ⟨z, pos⟩
      · have habs : idxGet s.index k = none := by
          rcases hsi : idxGet s.index k with _ | e
          · rfl
          · rcases hcov k e hsi with hm | hne
            · cases hm
            · exact absurd hidx hne
        have h1 := get_absent (s := ⟨[file], newIdx, 0⟩) hidx
        rw [h1, get_absent habs]
      · obtain ⟨hz, v, rest, hdrop, hans⟩ := hnew k z pos hidx
        subst hz
        have hfile0 : ([file] : List (List Char))[0]? = some file := rfl
        have h1 := get_eval (s := ⟨[file], newIdx, 0⟩) hidx hfile0 hdrop
        rw [h1, hans]
    · refine ⟨rfl, hnewnd, ?_, ?_⟩
      · intro f hf
        rcases List.mem_cons.mp hf with hf | hf
        · exact hf ▸ hfend
        · cases hf
      · intro k n pos hidx
        obtain ⟨hz, v, rest, hdrop, _⟩ := hnew k n pos hidx
        subst hz
        exact ⟨file, v, rest, rfl, hdrop⟩
    · intro _
      refine ⟨file, newIdx, recs, rfl, hrfile, hrpt, ?_, hkeep⟩
      intro k z pos hidx
      exact (hnew k z pos hidx).1
  | cons e rest ih =>
    obtain ⟨k, n, pos⟩ := e
    intro file newIdx recs hes hesnd hes2 hdisj hnew hcov hnewnd hfend hrfile hrpt hkeep
    rw [compactGo_cons]
    have hkes : k ∈ ((k, (n, pos)) :: rest).map Prod.fst := by
      rw [List.map_cons]; exact List.mem_cons_self _ _
    have hknone : idxGet newIdx k = none := hdisj k hkes
    have hkfresh : ∀ r ∈ recs.map Prod.fst, r ≠ k := by
      intro r hr he
      subst he
      rcases List.mem_map.mp hr with ⟨rr, hrr, hfst⟩
      rcases List.mem_iff_get.mp hrr with ⟨⟨j, hj⟩, hget⟩
      have := hrpt j hj
      rw [hget, hfst, hknone] at this
      cases this
    have hndtail : (rest.map Prod.fst).Nodup := by
      rw [List.map_cons, List.nodup_cons] at hesnd
      exact hesnd.2
    have hknotin : k ∉ rest.map Prod.fst := by
      rw [List.map_cons, List.nodup_cons] at hesnd
      exact hesnd.1
    by_cases hn : n < s.active_nth_file
    · rw [if_pos hn]
      obtain ⟨hnlt, v, restw, hdropw, hansw⟩ := hes2 k n pos (List.mem_cons_self _ _)
      rw [if_pos hn] at hdropw
      have hfile_n : s.segments[n]? = some (s.segments.getD n []) := by
        rcases hq : s.segments[n]? with _ | f
        · rw [List.getElem?_eq_none_iff] at hq; omega
        · rw [List.getD_eq_getElem?_getD, hq]
          rfl
      have hread := read_eval hfile_n hdropw
      by_cases hm : '#' ∈ encodeCommand (.Set k v)
      · rw [if_pos hm] at hread
        rw [hread]
        dsimp only
        refine ⟨?_, ?_, ?_⟩
        · intro k'
          have h1 := get_append_active hInv
            (encodeLog (recs.map fun r => Command.Set r.1 r.2)) k'
          rw [hrfile]
          exact h1
        · refine ⟨?_, hInv.nodup, ?_, ?_⟩
          · rw [List.length_set]; exact hInv.seg_len
          · intro f hf
            rcases List.mem_or_eq_of_mem_set hf with hf | hf
            · exact hInv.ends_hash f hf
            · exact hf ▸ hfend
          · have h2 := entries_append_active hInv
              (encodeLog (recs.map fun r => Command.Set r.1 r.2))
            rw [hrfile]
            exact h2
        · intro hc; cases hc
      · rw [if_neg hm] at hread
        rw [hread]
        dsimp only
        refine ih (file ++ encodeCommand (.Set k v) ++ ['#'])
          (idxInsert newIdx k (0, file.length)) (recs ++ [(k, v)])
          ?_ hndtail ?_ ?_ ?_ ?_ ?_ ?_ ?_ ?_ ?_
        · intro k' e' hm'
          exact hes k' e' (List.mem_cons_of_mem _ hm')
        · intro k' n' pos' hm'
          obtain ⟨hlt', v', restw', hdrop', hans'⟩ := hes2 k' n' pos' (List.mem_cons_of_mem _ hm')
          refine ⟨hlt', v', ?_⟩
          by_cases hn' : n' < s.active_nth_file
          · rw [if_pos hn'] at hdrop' ⊢
            exact ⟨restw', hdrop', hans'⟩
          · rw [if_neg hn'] at hdrop' ⊢
            refine ⟨restw' ++ (encodeCommand (.Set k v) ++ ['#']), ?_, hans'⟩
            rw [List.append_assoc]
            exact drop_append_region hdrop'
        · intro k' hk'
          have hne : k' ≠ k := fun he => hknotin (he ▸ hk')
          rw [idxGet_insert_ne _ _ hne]
          exact hdisj k' (List.mem_cons_of_mem _ hk')
        · intro k' z' pos' hidx'
          by_cases hk' : k' = k
          · subst hk'
            rw [idxGet_insert_self] at hidx'
            injection hidx' with h'
            rw [Prod.mk.injEq] at h'
            obtain ⟨hz', hp'⟩ := h'
            subst hz'
            refine ⟨rfl, v, [], ?_, ?_⟩
            · rw [← hp', List.append_assoc, List.drop_left]
            · rw [if_neg hm]
              rw [if_neg hm] at hansw
              exact hansw
          · rw [idxGet_insert_ne _ _ hk'] at hidx'
            obtain ⟨hz', v', restw', hdrop', hans'⟩ := hnew k' z' pos' hidx'
            refine ⟨hz', v', restw' ++ (encodeCommand (.Set k v) ++ ['#']), ?_, hans'⟩
            rw [List.append_assoc]
            exact drop_append_region hdrop'
        · intro k' e' hsi
          rcases hcov k' e' hsi with hm' | hne'
          · rcases List.mem_cons.mp hm' with hm' | hm'
            · injection hm' with h1 h2
              subst h1
              right
              rw [idxGet_insert_self]
              intro hc; cases hc
            · exact Or.inl hm'
          · right
            by_cases hk' : k' = k
            · subst hk'
              rw [idxGet_insert_self]
              intro hc; cases hc
            · rw [idxGet_insert_ne _ _ hk']
              exact hne'
        · exact keys_insert_nodup hnewnd k (0, file.length)
        · right
          exact ⟨file ++ encodeCommand (.Set k v), rfl⟩
        · rw [hrfile]
          simp only [List.map_append, encodeLog_append, List.append_assoc, List.map_cons,
            List.map_nil]
          rw [encodeLog_singleton]
        · intro j hj
          rw [List.length_append, List.length_singleton] at hj
          by_cases hjlt : j < recs.length
          · have hget : (recs ++ [(k, v)]).get ⟨j, by rw [List.length_append]; omega⟩ =
                recs.get ⟨j, hjlt⟩ := by
              rw [List.get_append_left]
            rw [hget]
            have htake : (recs ++ [(k, v)]).take j = recs.take j := by
              rw [List.take_append_of_le_length (by omega)]
            rw [htake]
            have hne : (recs.get ⟨j, hjlt⟩).1 ≠ k :=
              hkfresh _ (List.mem_map.mpr ⟨recs.get ⟨j, hjlt⟩, List.get_mem _ _ _, rfl⟩)
            rw [idxGet_insert_ne _ _ hne]
            exact hrpt j hjlt
          · have hj' : j = recs.length := by omega
            subst hj'
            have hget : (recs ++ [(k, v)]).get ⟨recs.length, by simp⟩ = (k, v) := by
              rw [List.get_append_right] <;> simp
            rw [hget]
            rw [idxGet_insert_self]
            have htake : (recs ++ [(k, v)]).take recs.length = recs := by
              rw [List.take_append_of_le_length (by omega), List.take_length]
            rw [htake]
            have hlen : file.length = (s.segments.getD s.active_nth_file []).length +
                (encodeLog (recs.map fun r => Command.Set r.1 r.2)).length := by
              rw [hrfile, List.length_append]
            rw [hlen]
        · intro k' h'
          by_cases hk' : k' = k
          · subst hk'
            left
            rw [List.map_append, List.mem_append]
            right
            exact List.mem_singleton.mpr rfl
          · rw [idxGet_insert_ne _ _ hk'] at h'
            rcases hkeep k' h' with hm' | hx
            · left
              rw [List.map_append, List.mem_append]
              exact Or.inl hm'
            · exact Or.inr hx
    · rw [if_neg hn]
      refine ih file (idxInsert newIdx k (0, pos)) recs
        ?_ hndtail ?_ ?_ ?_ ?_ ?_ hfend hrfile ?_ ?_
      · intro k' e' hm'
        exact hes k' e' (List.mem_cons_of_mem _ hm')
      · intro k' n' pos' hm'
        exact hes2 k' n' pos' (List.mem_cons_of_mem _ hm')
      · intro k' hk'
        have hne : k' ≠ k := fun he => hknotin (he ▸ hk')
        rw [idxGet_insert_ne _ _ hne]
        exact hdisj k' (List.mem_cons_of_mem _ hk')
      · intro k' z' pos' hidx'
        by_cases hk' : k' = k
        · subst hk'
          rw [idxGet_insert_self] at hidx'
          injection hidx' with h'
          rw [Prod.mk.injEq] at h'
          obtain ⟨hz', hp'⟩ := h'
          subst hz'
          obtain ⟨hnlt, v, restw, hdropw, hansw⟩ := hes2 k' n pos (List.mem_cons_self _ _)
          rw [if_neg hn] at hdropw
          exact ⟨rfl, v, restw, hp' ▸ hdropw, hansw⟩
        · rw [idxGet_insert_ne _ _ hk'] at hidx'
          exact hnew k' z' pos' hidx'
      · intro k' e' hsi
        rcases hcov k' e' hsi with hm' | hne'
        · rcases List.mem_cons.mp hm' with hm' | hm'
          · injection hm' with h1 h2
            subst h1
            right
            rw [idxGet_insert_self]
            intro hc; cases hc
          · exact Or.inl hm'
        · right
          by_cases hk' : k' = k
          · subst hk'
            rw [idxGet_insert_self]
            intro hc; cases hc
          · rw [idxGet_insert_ne _ _ hk']
            exact hne'
      · exact keys_insert_nodup hnewnd k (0, pos)
      · intro j hj
        have hne : (recs.get ⟨j, hj⟩).1 ≠ k :=
          hkfresh _ (List.mem_map.mpr ⟨recs.get ⟨j, hj⟩, List.get_mem _ _ _, rfl⟩)
        rw [idxGet_insert_ne _ _ hne]
        exact hrpt j hj
      · intro k' h'
        by_cases hk' : k' = k
        · subst hk'
          right
          exact ⟨n, pos, hes _ _ (List.mem_cons_self _ _), hn⟩
        · rw [idxGet_insert_ne _ _ hk'] at h'
          exact hkeep k' h'



theorem lt_length_of_getElem?_some {l : List (List Char)} {n : Nat} {f : List Char}
    (h : l[n]? = some f) : n < l.length := by
  by_contra hge
  rw [List.getElem?_eq_none (by omega)] at h
  cases h

theorem getD_of_getElem?_some {l : List (List Char)} {n : Nat} {f : List Char}
    (h : l[n]? = some f) : l.getD n [] = f := by
  rw [List.getD_eq_getElem?_getD, h]
  rfl

/-- Top-level `compact` specification: every `get` answer is preserved
(also when a read fails part-way), the invariant is preserved, and on
success the store is a single segment 0 of tracked records. -/
theorem compact_spec {s : KvStoreState} (hInv : StoreInv s) :
    (∀ k, get (compact s).1 k = get s k) ∧ StoreInv (compact s).1 ∧
    ((compact s).2 = none →
      ∃ (fileF : List Char) (newIdxF : Index) (recsF : List (Str × Str)),
        (compact s).1 = ⟨[fileF], newIdxF, 0⟩ ∧
        fileF = s.segments.getD s.active_nth_file [] ++
          encodeLog (recsF.map fun r => Command.Set r.1 r.2) ∧
        (∀ j (hj : j < recsF.length),
          idxGet newIdxF (recsF.get ⟨j, hj⟩).1 =
            some (0, (s.segments.getD s.active_nth_file []).length +
              (encodeLog ((recsF.take j).map fun r => Command.Set r.1 r.2)).length)) ∧
        (∀ k z pos, idxGet newIdxF k = some (z, pos) → z = 0) ∧
        (∀ k, idxGet newIdxF k ≠ none → k ∈ recsF.map Prod.fst ∨
          ∃ n pos, idxGet s.index k = some (n, pos) ∧ ¬ n < s.active_nth_file)) := by
  unfold compact
  refine compactGo_spec s hInv s.index (s.segments.getD s.active_nth_file []) [] []
    ?_ hInv.nodup ?_ ?_ ?_ ?_ ?_ ?_ ?_ ?_ ?_
  · intro k e hm
    exact idxGet_of_mem hm hInv.nodup
  · intro k n pos hm
    have hidx := idxGet_of_mem hm hInv.nodup
    obtain ⟨file, v, rest, hfile, hdrop⟩ := hInv.entries k n pos hidx
    have hnlt : n < s.segments.length := lt_length_of_getElem?_some hfile
    refine ⟨hnlt, v, rest, ?_, (get_eval hidx hfile hdrop).symm⟩
    by_cases hn : n < s.active_nth_file
    · rw [if_pos hn, getD_of_getElem?_some hfile]
      exact hdrop
    · rw [if_neg hn]
      have hna : n = s.active_nth_file := by
        have := hInv.seg_len
        omega
      rw [← hna, getD_of_getElem?_some hfile]
      exact hdrop
  · intro k _
    rfl
  · intro k z pos h
    rw [show idxGet [] k = none from rfl] at h
    cases h
  · intro k e h
    exact Or.inl (mem_of_idxGet h)
  · simp
  · rcases hq : s.segments[s.active_nth_file]? with _ | f
    · left
      rw [List.getD_eq_getElem?_getD, hq]
      rfl
    · rw [getD_of_getElem?_some hq]
      exact hInv.ends_hash f (List.getElem?_mem hq)
  · simp [encodeLog]
  · intro j hj
    simp at hj
  · intro k h
    rw [show idxGet [] k = none from rfl] at h
    exact absurd rfl h

/-- Rolling over to a fresh active segment preserves the invariant. -/
theorem rollover_inv {s : KvStoreState} (hInv : StoreInv s) :
    StoreInv ⟨s.segments ++ [[]], s.index, s.active_nth_file + 1⟩ := by
  refine ⟨?_, hInv.nodup, ?_, ?_⟩
  · rw [List.length_append, hInv.seg_len]
    rfl
  · intro f hf
    rcases List.mem_append.mp hf with hf | hf
    · exact hInv.ends_hash f hf
    · rcases List.mem_cons.mp hf with hf | hf
      · exact Or.inl hf
      · cases hf
  · intro k n pos hidx
    obtain ⟨file, v, rest, hfile, hdrop⟩ := hInv.entries k n pos hidx
    refine ⟨file, v, rest, ?_, hdrop⟩
    rw [List.getElem?_append_left (lt_length_of_getElem?_some hfile)]
    exact hfile

/-- Rolling over preserves every `get` answer. -/
theorem rollover_get {s : KvStoreState} (hInv : StoreInv s) (k : Str) :
    get (⟨s.segments ++ [[]], s.index, s.active_nth_file + 1⟩ : KvStoreState) k = get s k := by
  rcases hidx : idxGet s.index k with _ | ⟨n, pos⟩
  · have h1 := get_absent (s := ⟨s.segments ++ [[]], s.index, s.active_nth_file + 1⟩) hidx
    rw [h1, get_absent hidx]
  · obtain ⟨file, v, rest, hfile, hdrop⟩ := hInv.entries k n pos hidx
    have hfile' : (s.segments ++ [[]])[n]? = some file := by
      rw [List.getElem?_append_left (lt_length_of_getElem?_some hfile)]
      exact hfile
    have h1 := get_eval (s := ⟨s.segments ++ [[]], s.index, s.active_nth_file + 1⟩)
      hidx hfile' hdrop
    rw [h1, get_eval hidx hfile hdrop]

/-- `try_compact` preserves the invariant and every `get` answer. -/
theorem try_compact_spec {s : KvStoreState} (hInv : StoreInv s) (pos : Nat) :
    (∀ k, get (try_compact pos s).1 k = get s k) ∧ StoreInv (try_compact pos s).1 := by
  unfold try_compact
  by_cases hp : pos > SINGLE_FILE_SIZE
  · rw [if_pos hp]
    have hInv1 : StoreInv ⟨s.segments ++ [[]], s.index, s.active_nth_file + 1⟩ :=
      rollover_inv hInv
    by_cases hc : (⟨s.segments ++ [[]], s.index, s.active_nth_file + 1⟩ :
        KvStoreState).index.length <
      (⟨s.segments ++ [[]], s.index, s.active_nth_file + 1⟩ :
        KvStoreState).active_nth_file * 1024
    · rw [if_pos hc]
      obtain ⟨hget, hinv, _⟩ := compact_spec hInv1
      exact ⟨fun k => (hget k).trans (rollover_get hInv k), hinv⟩
    · rw [if_neg hc]
      exact ⟨fun k => rollover_get hInv k, hInv1⟩
  · rw [if_neg hp]
    exact ⟨fun _ => rfl, hInv⟩



theorem get_congr {s1 s2 : KvStoreState} (k : Str) (hseg : s1.segments = s2.segments)
    (hidx : idxGet s1.index k = idxGet s2.index k) : get s1 k = get s2 k := by
  unfold get
  rw [hidx, hseg]

theorem set_eq (s : KvStoreState) (k v : Str) :
    set s k v = try_compact (s.segments.getD s.active_nth_file []).length
      ⟨s.segments.set s.active_nth_file
        (s.segments.getD s.active_nth_file [] ++ encodeCommand (.Set k v) ++ ['#']),
       idxInsert s.index k (s.active_nth_file, (s.segments.getD s.active_nth_file []).length),
       s.active_nth_file⟩ := rfl

theorem set_mid_inv {s : KvStoreState} (hInv : StoreInv s) (k v : Str) :
    StoreInv ⟨s.segments.set s.active_nth_file
      (s.segments.getD s.active_nth_file [] ++ encodeCommand (.Set k v) ++ ['#']),
      idxInsert s.index k (s.active_nth_file, (s.segments.getD s.active_nth_file []).length),
      s.active_nth_file⟩ := by
  have hlt : s.active_nth_file < s.segments.length := by
    rw [hInv.seg_len]; omega
  refine ⟨?_, keys_insert_nodup hInv.nodup k _, ?_, ?_⟩
  · rw [List.length_set]
    exact hInv.seg_len
  · intro f hf
    rcases List.mem_or_eq_of_mem_set hf with hf | hf
    · exact hInv.ends_hash f hf
    · right
      exact ⟨s.segments.getD s.active_nth_file [] ++ encodeCommand (.Set k v), hf⟩
  · intro k'' n pos hidx
    by_cases hk'' : k'' = k
    · subst hk''
      rw [idxGet_insert_self] at hidx
      injection hidx with h'
      rw [Prod.mk.injEq] at h'
      obtain ⟨hn, hp⟩ := h'
      refine ⟨s.segments.getD s.active_nth_file [] ++ encodeCommand (.Set k'' v) ++ ['#'],
        v, [], ?_, ?_⟩
      · rw [← hn, List.getElem?_set_self hlt]
      · rw [← hp, List.append_assoc, List.drop_left]
    · rw [idxGet_insert_ne _ _ hk''] at hidx
      have h := entries_append_active hInv (encodeCommand (.Set k v) ++ ['#']) k'' n pos hidx
      rw [← List.append_assoc] at h
      exact h

theorem set_mid_get_self {s : KvStoreState} (hInv : StoreInv s) (k v : Str) :
    get (⟨s.segments.set s.active_nth_file
      (s.segments.getD s.active_nth_file [] ++ encodeCommand (.Set k v) ++ ['#']),
      idxInsert s.index k (s.active_nth_file, (s.segments.getD s.active_nth_file []).length),
      s.active_nth_file⟩ : KvStoreState) k =
    if '#' ∈ encodeCommand (.Set k v) then .error .SerdeJSONError else .ok (some v) := by
  have hlt : s.active_nth_file < s.segments.length := by
    rw [hInv.seg_len]; omega
  have hdrop : (s.segments.getD s.active_nth_file [] ++ encodeCommand (.Set k v) ++
      ['#']).drop (s.segments.getD s.active_nth_file []).length =
      encodeCommand (.Set k v) ++ '#' :: [] := by
    rw [List.append_assoc, List.drop_left]
  exact get_eval (idxGet_insert_self _ _ _) (by rw [List.getElem?_set_self hlt]) hdrop

theorem set_mid_get_other {s : KvStoreState} (hInv : StoreInv s) (k v : Str) {k' : Str}
    (hne : k' ≠ k) :
    get (⟨s.segments.set s.active_nth_file
      (s.segments.getD s.active_nth_file [] ++ encodeCommand (.Set k v) ++ ['#']),
      idxInsert s.index k (s.active_nth_file, (s.segments.getD s.active_nth_file []).length),
      s.active_nth_file⟩ : KvStoreState) k' = get s k' := by
  have h1 : get (⟨s.segments.set s.active_nth_file
      (s.segments.getD s.active_nth_file [] ++ encodeCommand (.Set k v) ++ ['#']),
      idxInsert s.index k (s.active_nth_file, (s.segments.getD s.active_nth_file []).length),
      s.active_nth_file⟩ : KvStoreState) k' =
      get (⟨s.segments.set s.active_nth_file
        (s.segments.getD s.active_nth_file [] ++ (encodeCommand (.Set k v) ++ ['#'])),
        s.index, s.active_nth_file⟩ : KvStoreState) k' := by
    refine get_congr k' ?_ ?_
    · dsimp only
      rw [List.append_assoc]
    · exact idxGet_insert_ne _ _ hne
  rw [h1]
  exact get_append_active hInv (encodeCommand (.Set k v) ++ ['#']) k'

/-- Full specification of `set`: the invariant is preserved, the written
key afterwards reads back its canonical record (its value when the record
is delimiter-free, a decode error when the value or key contains `#`),
and every other key's answer is unchanged. -/
theorem set_spec {s : KvStoreState} (hInv : StoreInv s) (k v : Str) :
    StoreInv (set s k v).1 ∧
    (get (set s k v).1 k =
      if '#' ∈ encodeCommand (.Set k v) then .error .SerdeJSONError else .ok (some v)) ∧
    (∀ k', k' ≠ k → get (set s k v).1 k' = get s k') := by
  rw [set_eq]
  obtain ⟨htcget, htcinv⟩ := try_compact_spec (set_mid_inv hInv k v)
    (s.segments.getD s.active_nth_file []).length
  refine ⟨htcinv, ?_, ?_⟩
  · rw [htcget k]
    exact set_mid_get_self hInv k v
  · intro k' hne
    rw [htcget k']
    exact set_mid_get_other hInv k v hne

theorem remove_absent {s : KvStoreState} {k : Str} (h : idxGet s.index k = none) :
    remove s k = (s, some .KeyNotFound) := by
  unfold remove
  rw [h]
  rfl

theorem remove_eq_of_present {s : KvStoreState} {k : Str} (h : (idxGet s.index k).isSome) :
    remove s k = try_compact (s.segments.getD s.active_nth_file []).length
      ⟨s.segments.set s.active_nth_file
        (s.segments.getD s.active_nth_file [] ++ encodeCommand (.Rm k) ++ ['#']),
       idxRemove s.index k, s.active_nth_file⟩ := by
  unfold remove
  rw [if_pos h]
  rfl

theorem rm_mid_inv {s : KvStoreState} (hInv : StoreInv s) (k : Str) :
    StoreInv ⟨s.segments.set s.active_nth_file
      (s.segments.getD s.active_nth_file [] ++ encodeCommand (.Rm k) ++ ['#']),
      idxRemove s.index k, s.active_nth_file⟩ := by
  refine ⟨?_, keys_remove_nodup hInv.nodup k, ?_, ?_⟩
  · rw [List.length_set]
    exact hInv.seg_len
  · intro f hf
    rcases List.mem_or_eq_of_mem_set hf with hf | hf
    · exact hInv.ends_hash f hf
    · right
      exact ⟨s.segments.getD s.active_nth_file [] ++ encodeCommand (.Rm k), hf⟩
  · intro k'' n pos hidx
    by_cases hk'' : k'' = k
    · subst hk''
      rw [idxGet_remove_self] at hidx
      cases hidx
    · rw [idxGet_remove_ne _ hk''] at hidx
      have h := entries_append_active hInv (encodeCommand (.Rm k) ++ ['#']) k'' n pos hidx
      rw [← List.append_assoc] at h
      exact h

theorem rm_mid_get_self {s : KvStoreState} (k : Str) :
    get (⟨s.segments.set s.active_nth_file
      (s.segments.getD s.active_nth_file [] ++ encodeCommand (.Rm k) ++ ['#']),
      idxRemove s.index k, s.active_nth_file⟩ : KvStoreState) k = .ok none :=
  get_absent (idxGet_remove_self _ _)

theorem rm_mid_get_other {s : KvStoreState} (hInv : StoreInv s) (k : Str) {k' : Str}
    (hne : k' ≠ k) :
    get (⟨s.segments.set s.active_nth_file
      (s.segments.getD s.active_nth_file [] ++ encodeCommand (.Rm k) ++ ['#']),
      idxRemove s.index k, s.active_nth_file⟩ : KvStoreState) k' = get s k' := by
  have h1 : get (⟨s.segments.set s.active_nth_file
      (s.segments.getD s.active_nth_file [] ++ encodeCommand (.Rm k) ++ ['#']),
      idxRemove s.index k, s.active_nth_file⟩ : KvStoreState) k' =
      get (⟨s.segments.set s.active_nth_file
        (s.segments.getD s.active_nth_file [] ++ (encodeCommand (.Rm k) ++ ['#'])),
        s.index, s.active_nth_file⟩ : KvStoreState) k' := by
    refine get_congr k' ?_ ?_
    · dsimp only
      rw [List.append_assoc]
    · exact idxGet_remove_ne _ hne
  rw [h1]
  exact get_append_active hInv (encodeCommand (.Rm k) ++ ['#']) k'

/-- Full specification of `remove` on a present key. -/
theorem remove_spec_present {s : KvStoreState} (hInv : StoreInv s) {k : Str}
    (h : (idxGet s.index k).isSome) :
    StoreInv (remove s k).1 ∧ get (remove s k).1 k = .ok none ∧
    (∀ k', k' ≠ k → get (remove s k).1 k' = get s k') := by
  rw [remove_eq_of_present h]
  obtain ⟨htcget, htcinv⟩ := try_compact_spec (rm_mid_inv hInv k)
    (s.segments.getD s.active_nth_file []).length
  refine ⟨htcinv, ?_, ?_⟩
  · rw [htcget k]
    exact rm_mid_get_self k
  · intro k' hne
    rw [htcget k']
    exact rm_mid_get_other hInv k hne

/-- Every reachable state satisfies the store invariant. -/
theorem reach_inv {s : KvStoreState} (h : Reach s) : StoreInv s := by
  induction h with
  | init =>
    refine ⟨rfl, by simp [emptyStore], ?_, ?_⟩
    · intro f hf
      rcases List.mem_cons.mp hf with hf | hf
      · exact Or.inl hf
      · cases hf
    · intro k n pos hidx
      rw [show idxGet emptyStore.index k = none from rfl] at hidx
      cases hidx
  | set_step s k v _ ih => exact (set_spec ih k v).1
  | rm_step s k _ ih =>
    rcases hq : idxGet s.index k with _ | e
    · rw [remove_absent hq]
      exact ih
    · exact (remove_spec_present ih (by rw [hq]; rfl)).1



/-- C3: for every reachable engine state and every key, running `compact`
leaves the answer of `get` unchanged (the post-state of a failed
compaction included, since the code keeps its partial appends). -/
theorem C3_compact_preserves_get {s : KvStoreState} (h : Reach s) (k : Str) :
    get (compact s).1 k = get s k :=
  (compact_spec (reach_inv h)).1 k

theorem C3_witness :
    get (compact (set emptyStore ['k'] ['v']).1).1 ['k'] =
      get (set emptyStore ['k'] ['v']).1 ['k'] ∧
    get (set emptyStore ['k'] ['v']).1 ['k'] = .ok (some ['v']) :=
  ⟨C3_compact_preserves_get (Reach.set_step _ _ _ Reach.init) ['k'], by decide⟩

/-- C6 (amended): in every reachable state each index entry points at the
canonical encoding of a `Set` record for its own key followed by the
delimiter (reading it back yields that record, or a decode error when the
record text itself contains `#`); consequently `get` never returns the
log-mismatch error `ErrorLogMeet`. -/
theorem C6_entries_canonical {s : KvStoreState} (h : Reach s) :
    (∀ k n pos, idxGet s.index k = some (n, pos) →
      ∃ file v rest, s.segments[n]? = some file ∧
        file.drop pos = encodeCommand (.Set k v) ++ '#' :: rest) ∧
    (∀ k, get s k ≠ .error .ErrorLogMeet) :=
  ⟨(reach_inv h).entries, fun k => get_no_logMeet (reach_inv h) k⟩

theorem C6_witness :
    ((∀ k n pos, idxGet (set emptyStore ['k'] ['v']).1.index k = some (n, pos) →
      ∃ file v rest, (set emptyStore ['k'] ['v']).1.segments[n]? = some file ∧
        file.drop pos = encodeCommand (.Set k v) ++ '#' :: rest) ∧
    (∀ k, get (set emptyStore ['k'] ['v']).1 k ≠ .error .ErrorLogMeet)) :=
  C6_entries_canonical (Reach.set_step _ _ _ Reach.init)

/-- C6 counterexample to the claim as stated: after `set "k" "#"` the
index entry for `"k"` is reachable, but decoding the record at its offset
fails with a `SerdeJSONError` (the read stops at the delimiter byte inside
the value), rather than yielding a `Set` record. -/
theorem C6_counterexample :
    Reach (set emptyStore ['k'] ['#']).1 ∧
    idxGet (set emptyStore ['k'] ['#']).1.index ['k'] = some (0, 0) ∧
    read_command_from (set emptyStore ['k'] ['#']).1.segments 0 0 =
      .error .SerdeJSONError ∧
    ¬ ∃ v, read_command_from (set emptyStore ['k'] ['#']).1.segments 0 0 =
      .ok (.Set ['k'] v) := by
  refine ⟨Reach.set_step _ _ _ Reach.init, by decide, by decide, ?_⟩
  intro ⟨v, hv⟩
  rw [show read_command_from (set emptyStore ['k'] ['#']).1.segments 0 0 =
    .error .SerdeJSONError from by decide] at hv
  cases hv

/-- C7: `remove` on a key absent from the index fails with `KeyNotFound`
and returns the store unchanged: no record is appended and neither the
index nor the active segment id is modified. -/
theorem C7_remove_absent {s : KvStoreState} {k : Str} (h : idxGet s.index k = none) :
    remove s k = (s, some .KeyNotFound) :=
  remove_absent h

theorem C7_witness :
    idxGet emptyStore.index ['k'] = none ∧
    remove emptyStore ['k'] = (emptyStore, some .KeyNotFound) :=
  ⟨by decide, C7_remove_absent (by decide)⟩

/-- C8: `try_compact` rolls over exactly when the record offset exceeds
1 MiB (strictly), appending a fresh empty segment with the incremented
active id; after such a rollover it runs `compact` exactly when the index
holds fewer than `new_active_id * 1024` entries; otherwise it returns the
rolled-over state; and with an offset of at most 1 MiB it changes
nothing. -/
theorem C8_try_compact_behavior (pos : Nat) (s : KvStoreState) :
    (pos ≤ 1024 * 1024 → try_compact pos s = (s, none)) ∧
    (pos > 1024 * 1024 → s.index.length < (s.active_nth_file + 1) * 1024 →
      try_compact pos s =
        compact ⟨s.segments ++ [[]], s.index, s.active_nth_file + 1⟩) ∧
    (pos > 1024 * 1024 → ¬ s.index.length < (s.active_nth_file + 1) * 1024 →
      try_compact pos s =
        (⟨s.segments ++ [[]], s.index, s.active_nth_file + 1⟩, none)) := by
  refine ⟨?_, ?_, ?_⟩
  · intro hle
    unfold try_compact
    rw [if_neg (by rw [show SINGLE_FILE_SIZE = 1024 * 1024 from rfl]; omega)]
  · intro hgt hlt
    unfold try_compact
    rw [if_pos (by rw [show SINGLE_FILE_SIZE = 1024 * 1024 from rfl]; omega)]
    dsimp only
    rw [if_pos hlt]
  · intro hgt hge
    unfold try_compact
    rw [if_pos (by rw [show SINGLE_FILE_SIZE = 1024 * 1024 from rfl]; omega)]
    dsimp only
    rw [if_neg hge]

set_option maxRecDepth 8192 in
theorem C8_witness :
    try_compact 0 emptyStore = (emptyStore, none) ∧
    try_compact (2 * 1024 * 1024) (set emptyStore ['k'] ['v']).1 =
      compact ⟨(set emptyStore ['k'] ['v']).1.segments ++ [[]],
        (set emptyStore ['k'] ['v']).1.index,
        (set emptyStore ['k'] ['v']).1.active_nth_file + 1⟩ ∧
    try_compact (2 * 1024 * 1024)
        (⟨[], List.replicate 1024 (['k'], (0, 0)), 0⟩ : KvStoreState) =
      (⟨[[]], List.replicate 1024 (['k'], (0, 0)), 1⟩, none) := by
  refine ⟨(C8_try_compact_behavior 0 emptyStore).1 (by omega), ?_, ?_⟩
  · exact (C8_try_compact_behavior _ _).2.1 (by omega) (by decide)
  · have h := (C8_try_compact_behavior (2 * 1024 * 1024)
      (⟨[], List.replicate 1024 (['k'], (0, 0)), 0⟩ : KvStoreState)).2.2
      (by omega) (by decide)
    rw [h]
    rfl

/-- C9: when a compaction triggered by `try_compact` on a reachable state
completes successfully, the store has active id 0 and exactly one segment
file, that file is exactly the concatenation of the rewritten live `Set`
records, each of those records is pointed at by the index at its own
offset (so no dead records remain), and every index entry carries
segment id 0. -/
theorem C9_compaction_renumbers {s : KvStoreState} (h : Reach s) {pos : Nat}
    {s' : KvStoreState} (hpos : pos > 1024 * 1024)
    (hcond : s.index.length < (s.active_nth_file + 1) * 1024)
    (htc : try_compact pos s = (s', none)) :
    s'.active_nth_file = 0 ∧
    (∃ fileF recsF,
      s'.segments = [fileF] ∧
      fileF = encodeLog ((recsF : List (Str × Str)).map fun r => Command.Set r.1 r.2) ∧
      (∀ j (hj : j < recsF.length),
        idxGet s'.index (recsF.get ⟨j, hj⟩).1 =
          some (0, (encodeLog ((recsF.take j).map fun r => Command.Set r.1 r.2)).length))) ∧
    (∀ k z p, idxGet s'.index k = some (z, p) → z = 0) := by
  have hInv := reach_inv h
  have hc : try_compact pos s =
      compact ⟨s.segments ++ [[]], s.index, s.active_nth_file + 1⟩ :=
    (C8_try_compact_behavior pos s).2.1 hpos hcond
  rw [hc] at htc
  have hInv1 : StoreInv ⟨s.segments ++ [[]], s.index, s.active_nth_file + 1⟩ :=
    rollover_inv hInv
  obtain ⟨_, _, hshape⟩ := compact_spec hInv1
  have hnone : (compact ⟨s.segments ++ [[]], s.index, s.active_nth_file + 1⟩).2 = none := by
    rw [htc]
  obtain ⟨fileF, newIdxF, recsF, heq, hfile, hpt, hz, _⟩ := hshape hnone
  have hs' : s' = ⟨[fileF], newIdxF, 0⟩ := by
    have h1 : (compact ⟨s.segments ++ [[]], s.index, s.active_nth_file + 1⟩).1 = s' := by
      rw [htc]
    rw [← h1, heq]
  have hbase : ((⟨s.segments ++ [[]], s.index, s.active_nth_file + 1⟩ :
      KvStoreState).segments).getD
      (⟨s.segments ++ [[]], s.index, s.active_nth_file + 1⟩ :
        KvStoreState).active_nth_file [] = [] := by
    dsimp only
    rw [List.getD_eq_getElem?_getD,
      List.getElem?_append_right (by rw [hInv.seg_len]),
      show s.active_nth_file + 1 - s.segments.length = 0 from by rw [hInv.seg_len]; omega]
    rfl
  rw [hbase] at hfile hpt
  subst hs'
  refine ⟨rfl, ⟨fileF, recsF, rfl, by simpa using hfile, ?_⟩, ?_⟩
  · intro j hj
    have := hpt j hj
    simpa using this
  · intro k z p hk
    exact hz k z p hk

theorem C9_witness :
    (try_compact (2 * 1024 * 1024) (set emptyStore ['k'] ['v']).1).2 = none ∧
    ((try_compact (2 * 1024 * 1024) (set emptyStore ['k'] ['v']).1).1.active_nth_file = 0 ∧
    (∃ fileF recsF,
      (try_compact (2 * 1024 * 1024) (set emptyStore ['k'] ['v']).1).1.segments = [fileF] ∧
      fileF = encodeLog ((recsF : List (Str × Str)).map fun r => Command.Set r.1 r.2) ∧
      (∀ j (hj : j < recsF.length),
        idxGet (try_compact (2 * 1024 * 1024) (set emptyStore ['k'] ['v']).1).1.index
            (recsF.get ⟨j, hj⟩).1 =
          some (0, (encodeLog ((recsF.take j).map fun r => Command.Set r.1 r.2)).length))) ∧
    (∀ k z p,
      idxGet (try_compact (2 * 1024 * 1024) (set emptyStore ['k'] ['v']).1).1.index k =
        some (z, p) → z = 0)) := by
  refine ⟨by decide, ?_⟩
  have htc : try_compact (2 * 1024 * 1024) (set emptyStore ['k'] ['v']).1 =
      ((try_compact (2 * 1024 * 1024) (set emptyStore ['k'] ['v']).1).1, none) := by decide
  exact C9_compaction_renumbers (Reach.set_step _ _ _ Reach.init) (by omega) (by decide) htc



/-- C4: the framed codec does not round-trip a `Command` whose value
contains the delimiter byte `#`: writing `Set "k" "#"` with
`write_command_to_writer` and reading one record back from the returned
offset stops at the `#` inside the JSON text and fails with a
`SerdeJSONError` instead of returning the original command.  (For
delimiter-free strings the round-trip does hold, third conjunct.) -/
theorem C4_roundtrip_fails_on_hash :
    (write_command_to_writer [] (.Set ['k'] ['#'])).2 = 0 ∧
    read_command_from_reader (write_command_to_writer [] (.Set ['k'] ['#'])).1 0 =
      .error .SerdeJSONError ∧
    (¬ ∃ c, read_command_from_reader (write_command_to_writer [] (.Set ['k'] ['#'])).1 0 =
      .ok c) ∧
    decodeCommand (encodeCommand (.Set ['k'] ['v'])) = some (.Set ['k'] ['v']) := by
  refine ⟨by decide, by decide, ?_, by decide⟩
  intro ⟨c, hc⟩
  rw [show read_command_from_reader (write_command_to_writer [] (.Set ['k'] ['#'])).1 0 =
    .error .SerdeJSONError from by decide] at hc
  cases hc

/-- C5: startup replay does not tolerate a truncated trailing record: on a
directory whose single segment holds one good record followed by a
truncated tail, `open` propagates the decode error instead of returning
`Ok` with the index of the preceding records (second conjunct shows the
same log without the tail opens fine with exactly that index). -/
theorem C5_truncated_tail_fails :
    openStore [encodeLog [.Set ['a'] ['1']] ++ ['\x7b', '"', 'S', 'e']] =
      .error .SerdeJSONError ∧
    openStore [encodeLog [.Set ['a'] ['1']]] =
      .ok ⟨[encodeLog [.Set ['a'] ['1']]], [(['a'], (0, 0))], 0⟩ :=
  ⟨by decide, by decide⟩



theorem splitHash_nil : splitHash [] = [] := rfl

theorem splitHash_cons (c : Char) (s : List Char) :
    splitHash (c :: s) =
      (if c = '#' then [] :: splitHash s
       else match splitHash s with
         | [] => [[c]]
         | chunk :: rest => (c :: chunk) :: rest) := by
  rw [splitHash.eq_def]

theorem splitHash_record {xs : List Char} (h : '#' ∉ xs) (ys : List Char) :
    splitHash (xs ++ '#' :: ys) = xs :: splitHash ys := by
  induction xs with
  | nil => rw [List.nil_append, splitHash_cons, if_pos rfl]
  | cons c xs ih =>
    have hc : ¬ c = '#' := fun hc => h (hc ▸ List.mem_cons_self c xs)
    rw [List.cons_append, splitHash_cons, if_neg hc,
      ih (fun hx => h (List.mem_cons_of_mem c hx))]

theorem splitHash_encodeLog {cmds : List Command} (h : ∀ c ∈ cmds, cmdHashFree c) :
    splitHash (encodeLog cmds) = cmds.map encodeCommand := by
  induction cmds with
  | nil => rfl
  | cons c cs ih =>
    rw [encodeLog_cons, splitHash_record (hash_notMem_encode (h c (List.mem_cons_self c cs))),
      ih (fun x hx => h x (List.mem_cons_of_mem c hx)), List.map_cons]


theorem replayChunks_nil (i : Nat) (pos : Nat) (idx : Index) :
    replayChunks i [] pos idx = .ok (idx, pos) := rfl

theorem replayChunks_cons (i : Nat) (ch : List Char) (rest : List (List Char)) (pos : Nat)
    (idx : Index) :
    replayChunks i (ch :: rest) pos idx =
      (match decodeCommand ch with
       | some (.Set k _) => replayChunks i rest (pos + ch.length + 1) (idxInsert idx k (i, pos))
       | some (.Rm k) => replayChunks i rest (pos + ch.length + 1) (idxRemove idx k)
       | some (.Get _) => replayChunks i rest (pos + ch.length + 1) idx
       | none => .error .SerdeJSONError) := by
  rw [replayChunks.eq_def]

theorem replayModel_cons (i : Nat) (c : Command) (cs : List Command) (pos : Nat)
    (idx : Index) :
    replayModel i (c :: cs) pos idx =
      replayModel i cs (pos + (encodeCommand c).length + 1) (replayStep i idx pos c) := by
  rw [replayModel.eq_def]

theorem replayChunks_encodes (i : Nat) (cmds : List Command) :
    ∀ (pos : Nat) (idx : Index),
    replayChunks i (cmds.map encodeCommand) pos idx = .ok (replayModel i cmds pos idx) := by
  induction cmds with
  | nil => intro pos idx; rfl
  | cons c cs ih =>
    intro pos idx
    rw [List.map_cons, replayChunks_cons, decode_encode, replayModel_cons]
    cases c with
    | Set k v =>
      dsimp only [replayStep]
      exact ih _ _
    | Get k =>
      dsimp only [replayStep]
      exact ih _ _
    | Rm k =>
      dsimp only [replayStep]
      exact ih _ _

theorem replayModel_pos (i : Nat) (cmds : List Command) :
    ∀ (pos : Nat) (idx : Index),
    (replayModel i cmds pos idx).2 = pos + (encodeLog cmds).length := by
  induction cmds with
  | nil => intro pos idx; simp [replayModel, encodeLog]
  | cons c cs ih =>
    intro pos idx
    rw [replayModel, ih, encodeLog_cons]
    simp [List.length_append]
    omega

theorem replayFiles_nil (i : Nat) (idx : Index) : replayFiles [] i idx = .ok idx := rfl

theorem replayFiles_cons (f : List Char) (rest : List (List Char)) (i : Nat) (idx : Index) :
    replayFiles (f :: rest) i idx =
      (match replayChunks i (splitHash f) 0 idx with
       | .ok r => replayFiles rest (i + 1) r.1
       | .error e => .error e) := by
  rw [replayFiles.eq_def]
  dsimp only
  rcases replayChunks i (splitHash f) 0 idx with e | r <;> rfl

theorem replayFiles_append (fs1 fs2 : List (List Char)) :
    ∀ (i : Nat) (idx : Index),
    replayFiles (fs1 ++ fs2) i idx =
      (match replayFiles fs1 i idx with
       | .ok idx1 => replayFiles fs2 (i + fs1.length) idx1
       | .error e => .error e) := by
  induction fs1 with
  | nil => intro i idx; rfl
  | cons f rest ih =>
    intro i idx
    rw [List.cons_append, replayFiles_cons, replayFiles_cons]
    rcases replayChunks i (splitHash f) 0 idx with e | r
    · rfl
    · dsimp only
      rw [ih]
      rcases replayFiles rest (i + 1) r.1 with e | idx1
      · rfl
      · dsimp only
        have harith : i + 1 + rest.length = i + (f :: rest).length := by
          rw [List.length_cons]; omega
        rw [harith]

theorem replayFiles_single_wf {f : List Char} {cmds : List Command}
    (hwf : f = encodeLog cmds) (hhf : ∀ c ∈ cmds, cmdHashFree c) (i : Nat) (idx : Index) :
    replayFiles [f] i idx = .ok (replayModel i cmds 0 idx).1 := by
  rw [replayFiles_cons, hwf, splitHash_encodeLog hhf, replayChunks_encodes]
  rfl


theorem idxGet_insert_eval (idx : Index) (k0 : Str) (p : Nat × Nat) (k : Str) :
    idxGet (idxInsert idx k0 p) k = if k0 = k then some p else idxGet idx k := by
  by_cases h : k0 = k
  · subst h
    rw [if_pos rfl, idxGet_insert_self]
  · rw [if_neg h, idxGet_insert_ne _ _ (fun he => h he.symm)]

theorem idxGet_remove_eval (idx : Index) (k0 : Str) (k : Str) :
    idxGet (idxRemove idx k0) k = if k0 = k then none else idxGet idx k := by
  by_cases h : k0 = k
  · subst h
    rw [if_pos rfl, idxGet_remove_self]
  · rw [if_neg h, idxGet_remove_ne _ (fun he => h he.symm)]

theorem replayK_nil (i : Nat) (k : Str) (pos : Nat) (a : Option (Nat × Nat)) :
    replayK i k [] pos a = a := rfl

theorem replayK_cons (i : Nat) (k : Str) (c : Command) (cs : List Command) (pos : Nat)
    (a : Option (Nat × Nat)) :
    replayK i k (c :: cs) pos a =
      replayK i k cs (pos + (encodeCommand c).length + 1)
        (match c with
         | .Set k0 _ => if k0 = k then some (i, pos) else a
         | .Rm k0 => if k0 = k then none else a
         | .Get _ => a) := by
  rw [replayK.eq_def]

theorem replayModel_lookup (i : Nat) (cmds : List Command) :
    ∀ (pos : Nat) (idx : Index) (k : Str),
    idxGet (replayModel i cmds pos idx).1 k = replayK i k cmds pos (idxGet idx k) := by
  induction cmds with
  | nil => intro pos idx k; rfl
  | cons c cs ih =>
    intro pos idx k
    rw [replayModel_cons, replayK_cons, ih]
    cases c with
    | Set k0 v0 =>
      dsimp only [replayStep]
      rw [idxGet_insert_eval]
    | Get k0 => rfl
    | Rm k0 =>
      dsimp only [replayStep]
      rw [idxGet_remove_eval]

theorem replayK_append (i : Nat) (k : Str) (cs1 cs2 : List Command) :
    ∀ (pos : Nat) (a : Option (Nat × Nat)),
    replayK i k (cs1 ++ cs2) pos a =
      replayK i k cs2 (pos + (encodeLog cs1).length) (replayK i k cs1 pos a) := by
  induction cs1 with
  | nil =>
    intro pos a
    rw [List.nil_append, replayK_nil, encodeLog_nil, List.length_nil, Nat.add_zero]
  | cons c cs ih =>
    intro pos a
    rw [List.cons_append, replayK_cons, replayK_cons, ih]
    have harith : pos + (encodeCommand c).length + 1 + (encodeLog cs).length =
        pos + (encodeLog (c :: cs)).length := by
      rw [encodeLog_cons, List.length_append, List.length_cons]
      omega
    rw [harith]

theorem replayFilesK_nil (k : Str) (i : Nat) (a : Option (Nat × Nat)) :
    replayFilesK k [] i a = a := rfl

theorem replayFilesK_cons (k : Str) (cs : List Command) (rest : List (List Command))
    (i : Nat) (a : Option (Nat × Nat)) :
    replayFilesK k (cs :: rest) i a = replayFilesK k rest (i + 1) (replayK i k cs 0 a) := rfl

theorem replayFilesK_append (k : Str) (l1 l2 : List (List Command)) :
    ∀ (i : Nat) (a : Option (Nat × Nat)),
    replayFilesK k (l1 ++ l2) i a = replayFilesK k l2 (i + l1.length) (replayFilesK k l1 i a) := by
  induction l1 with
  | nil => intro i a; rw [List.nil_append, replayFilesK_nil, List.length_nil, Nat.add_zero]
  | cons cs rest ih =>
    intro i a
    rw [List.cons_append, replayFilesK_cons, replayFilesK_cons, ih]
    have harith : i + 1 + rest.length = i + (cs :: rest).length := by
      rw [List.length_cons]; omega
    rw [harith]

theorem replayFiles_lookup :
    ∀ (cmdss : List (List Command)),
    (∀ cs ∈ cmdss, ∀ c ∈ cs, cmdHashFree c) →
    ∀ (i : Nat) (idx : Index),
    ∃ ridx, replayFiles (cmdss.map encodeLog) i idx = .ok ridx ∧
      ∀ k, idxGet ridx k = replayFilesK k cmdss i (idxGet idx k) := by
  intro cmdss
  induction cmdss with
  | nil => intro _ i idx; exact ⟨idx, rfl, fun k => rfl⟩
  | cons cs rest ih =>
    intro hhf i idx
    obtain ⟨ridx, hok, hlook⟩ := ih (fun cs' h' => hhf cs' (List.mem_cons_of_mem _ h'))
      (i + 1) (replayModel i cs 0 idx).1
    refine ⟨ridx, ?_, ?_⟩
    · rw [List.map_cons, replayFiles_cons,
        splitHash_encodeLog (hhf cs (List.mem_cons_self _ _)), replayChunks_encodes]
      exact hok
    · intro k
      rw [hlook k, replayFilesK_cons, replayModel_lookup]


theorem replayK_cases (i : Nat) (k : Str) :
    ∀ (cmds : List Command) (done : List Char) (a : Option (Nat × Nat)),
    (∀ c ∈ cmds, cmdHashFree c) →
    ∀ n pos, replayK i k cmds done.length a = some (n, pos) →
    a = some (n, pos) ∨
      (n = i ∧ '#' ∉ k ∧ ∃ v rest, '#' ∉ v ∧
        (done ++ encodeLog cmds).drop pos = encodeCommand (.Set k v) ++ '#' :: rest) := by
  intro cmds
  induction cmds with
  | nil =>
    intro done a _ n pos h
    exact Or.inl h
  | cons c cs ih =>
    intro done a hhf n pos h
    rw [replayK_cons] at h
    have hlen : done.length + (encodeCommand c).length + 1 =
        (done ++ (encodeCommand c ++ ['#'])).length := by
      rw [List.length_append, List.length_append, List.length_singleton]
      omega
    rw [hlen] at h
    have hfull : (done ++ (encodeCommand c ++ ['#'])) ++ encodeLog cs =
        done ++ encodeLog (c :: cs) := by
      rw [encodeLog_cons, List.append_assoc, List.append_assoc]
      rfl
    have hhfcs : ∀ c' ∈ cs, cmdHashFree c' := fun c' h' => hhf c' (List.mem_cons_of_mem _ h')
    cases c with
    | Set k0 v0 =>
      dsimp only at h
      by_cases hk0 : k0 = k
      · rw [if_pos hk0] at h
        rcases ih (done ++ (encodeCommand (.Set k0 v0) ++ ['#'])) _ hhfcs n pos h with ha | hr
        · injection ha with ha'
          rw [Prod.mk.injEq] at ha'
          obtain ⟨hn, hp⟩ := ha'
          right
          subst hn
          subst hk0
          refine ⟨rfl, (hhf _ (List.mem_cons_self _ _)).1, v0,
            encodeLog cs, (hhf _ (List.mem_cons_self _ _)).2, ?_⟩
          rw [← hp, List.drop_append_of_le_length (le_refl _), List.drop_length,
            List.nil_append, encodeLog_cons]
        · rw [hfull] at hr
          exact Or.inr hr
      · rw [if_neg hk0] at h
        rcases ih (done ++ (encodeCommand (.Set k0 v0) ++ ['#'])) _ hhfcs n pos h with ha | hr
        · exact Or.inl ha
        · rw [hfull] at hr
          exact Or.inr hr
    | Get k0 =>
      dsimp only at h
      rcases ih (done ++ (encodeCommand (.Get k0) ++ ['#'])) _ hhfcs n pos h with ha | hr
      · exact Or.inl ha
      · rw [hfull] at hr
        exact Or.inr hr
    | Rm k0 =>
      dsimp only at h
      by_cases hk0 : k0 = k
      · rw [if_pos hk0] at h
        rcases ih (done ++ (encodeCommand (.Rm k0) ++ ['#'])) _ hhfcs n pos h with ha | hr
        · cases ha
        · rw [hfull] at hr
          exact Or.inr hr
      · rw [if_neg hk0] at h
        rcases ih (done ++ (encodeCommand (.Rm k0) ++ ['#'])) _ hhfcs n pos h with ha | hr
        · exact Or.inl ha
        · rw [hfull] at hr
          exact Or.inr hr

theorem replayFilesK_cases (k : Str) :
    ∀ (cmdss : List (List Command)) (i : Nat) (a : Option (Nat × Nat)),
    (∀ cs ∈ cmdss, ∀ c ∈ cs, cmdHashFree c) →
    ∀ n pos, replayFilesK k cmdss i a = some (n, pos) →
    a = some (n, pos) ∨
      ('#' ∉ k ∧ ∃ j cs v rest, cmdss[j]? = some cs ∧ n = i + j ∧ '#' ∉ v ∧
        (encodeLog cs).drop pos = encodeCommand (.Set k v) ++ '#' :: rest) := by
  intro cmdss
  induction cmdss with
  | nil =>
    intro i a _ n pos h
    exact Or.inl h
  | cons cs rest ih =>
    intro i a hhf n pos h
    rw [replayFilesK_cons] at h
    rcases ih (i + 1) _ (fun cs' h' => hhf cs' (List.mem_cons_of_mem _ h')) n pos h with
      ha | ⟨hk, j, cs', v, r, hj, hn, hv, hr⟩
    · have h0 : replayK i k cs ([] : List Char).length a = some (n, pos) := ha
      rcases replayK_cases i k cs [] a (hhf cs (List.mem_cons_self _ _)) n pos h0 with
        ha' | ⟨hn, hk, v, r, hv, hr⟩
      · exact Or.inl ha'
      · right
        refine ⟨hk, 0, cs, v, r, by rw [List.getElem?_cons_zero], by omega, hv, ?_⟩
        rw [List.nil_append] at hr
        exact hr
    · right
      exact ⟨hk, j + 1, cs', v, r, by rw [List.getElem?_cons_succ]; exact hj, by omega, hv, hr⟩

/-- In the delimiter-free regime every index entry points at the
canonical record of a `#`-free key/value pair. -/
theorem invHF_entries {cmdss : List (List Command)} {s : KvStoreState} (h : InvHF cmdss s) :
    ∀ k n pos, idxGet s.index k = some (n, pos) →
    '#' ∉ k ∧ ∃ cs v rest, cmdss[n]? = some cs ∧ '#' ∉ v ∧
      (encodeLog cs).drop pos = encodeCommand (.Set k v) ++ '#' :: rest := by
  intro k n pos hidx
  have hrk : replayFilesK k cmdss 0 none = some (n, pos) := by
    rw [h.agree k, hidx]
  rcases replayFilesK_cases k cmdss 0 none h.hf n pos hrk with ha | ⟨hk, j, cs, v, r, hj, hn, hv, hr⟩
  · cases ha
  · refine ⟨hk, cs, v, r, ?_, hv, hr⟩
    rw [hn, Nat.zero_add]
    exact hj


theorem set_last_append {α : Type} (l1 : List α) (a x : α) :
    (l1 ++ [a]).set l1.length x = l1 ++ [x] := by
  induction l1 with
  | nil => rfl
  | cons b l ih => simp [List.set, ih]

theorem getD_append_singleton {α : Type} (l1 : List α) (x d : α) :
    (l1 ++ [x]).getD l1.length d = x := by
  rw [List.getD_eq_getElem?_getD, List.getElem?_append_right (Nat.le_refl _), Nat.sub_self]
  rfl

theorem replayFilesK_singleton (k : Str) (cs : List Command) (i : Nat)
    (a : Option (Nat × Nat)) : replayFilesK k [cs] i a = replayK i k cs 0 a := rfl

theorem compactGo_keys (s : KvStoreState) :
    ∀ (es : Index) (file : List Char) (newIdx : Index),
    (compactGo s es file newIdx).2 = none →
    ∀ k, idxGet (compactGo s es file newIdx).1.index k ≠ none →
      idxGet newIdx k ≠ none ∨ ∃ e, (k, e) ∈ es := by
  intro es
  induction es with
  | nil =>
    intro file newIdx _ k h
    rw [compactGo_nil] at h
    exact Or.inl h
  | cons e rest ih =>
    obtain ⟨k0, n, pos⟩ := e
    intro file newIdx hnone k h
    rw [compactGo_cons] at h hnone
    by_cases hn : n < s.active_nth_file
    · rw [if_pos hn] at h hnone
      rcases hr : read_command_from s.segments n pos with e' | cmd
      · rw [hr] at hnone
        cases hnone
      · rw [hr] at h
        dsimp only at h
        rw [hr] at hnone
        dsimp only at hnone
        rcases ih _ _ hnone k h with hl | ⟨e', he'⟩
        · rw [idxGet_insert_eval] at hl
          by_cases hk0 : k0 = k
          · subst hk0
            exact Or.inr ⟨(n, pos), List.mem_cons_self _ _⟩
          · rw [if_neg hk0] at hl
            exact Or.inl hl
        · exact Or.inr ⟨e', List.mem_cons_of_mem _ he'⟩
    · rw [if_neg hn] at h hnone
      rcases ih _ _ hnone k h with hl | ⟨e', he'⟩
      · rw [idxGet_insert_eval] at hl
        by_cases hk0 : k0 = k
        · subst hk0
          exact Or.inr ⟨(n, pos), List.mem_cons_self _ _⟩
        · rw [if_neg hk0] at hl
          exact Or.inl hl
      · exact Or.inr ⟨e', List.mem_cons_of_mem _ he'⟩

theorem compactGo_no_error (s : KvStoreState)
    (hread : ∀ k n pos, idxGet s.index k = some (n, pos) → n < s.active_nth_file →
      ∃ c, read_command_from s.segments n pos = .ok c) :
    ∀ (es : Index) (file : List Char) (newIdx : Index),
    (∀ k e, (k, e) ∈ es → idxGet s.index k = some e) →
    (compactGo s es file newIdx).2 = none := by
  intro es
  induction es with
  | nil =>
    intro file newIdx _
    rw [compactGo_nil]
  | cons e rest ih =>
    obtain ⟨k0, n, pos⟩ := e
    intro file newIdx hes
    rw [compactGo_cons]
    by_cases hn : n < s.active_nth_file
    · rw [if_pos hn]
      obtain ⟨c, hc⟩ := hread k0 n pos (hes k0 (n, pos) (List.mem_cons_self _ _)) hn
      rw [hc]
      dsimp only
      exact ih _ _ (fun k' e' h' => hes k' e' (List.mem_cons_of_mem _ h'))
    · rw [if_neg hn]
      exact ih _ _ (fun k' e' h' => hes k' e' (List.mem_cons_of_mem _ h'))

/-- In the delimiter-free regime every index entry reads back as the
canonical `Set` record of a `#`-free pair, and `get` returns its value. -/
theorem invHF_read {cmdss : List (List Command)} {s : KvStoreState} (h : InvHF cmdss s) :
    ∀ k n pos, idxGet s.index k = some (n, pos) →
    '#' ∉ k ∧ ∃ v, '#' ∉ v ∧ read_command_from s.segments n pos = .ok (.Set k v) ∧
      get s k = .ok (some v) := by
  intro k n pos hidx
  obtain ⟨hk, cs, v, rest, hcs, hv, hdrop⟩ := invHF_entries h k n pos hidx
  have hfile : s.segments[n]? = some (encodeLog cs) := by
    rw [h.segs, List.getElem?_map, hcs]
    rfl
  have hm : '#' ∉ encodeCommand (.Set k v) := hash_notMem_encode ⟨hk, hv⟩
  have hr := read_eval hfile hdrop
  rw [if_neg hm] at hr
  have hg := get_eval hidx hfile hdrop
  rw [if_neg hm] at hg
  exact ⟨hk, v, hv, hr, hg⟩

/-- Rolling over to a fresh empty active segment preserves the
delimiter-free invariant. -/
theorem rollover_hf {cmdss : List (List Command)} {s : KvStoreState} (h : InvHF cmdss s) :
    InvHF (cmdss ++ [[]]) ⟨s.segments ++ [[]], s.index, s.active_nth_file + 1⟩ := by
  refine ⟨rollover_inv h.base, ?_, ?_, ?_, ?_⟩
  · rw [List.length_append, h.len]
    rfl
  · rw [List.map_append, h.segs]
    rfl
  · intro cs hcs c hc
    rcases List.mem_append.mp hcs with hcs | hcs
    · exact h.hf cs hcs c hc
    · rw [List.mem_singleton] at hcs
      subst hcs
      cases hc
  · intro k
    rw [replayFilesK_append, replayFilesK_singleton, replayK_nil]
    exact h.agree k

/-- Appending a `#`-free `Set` record preserves the delimiter-free
invariant on the pre-`try_compact` state of `set`. -/
theorem set_mid_hf {cmdss : List (List Command)} {s : KvStoreState} (h : InvHF cmdss s)
    (k v : Str) (hk : '#' ∉ k) (hv : '#' ∉ v) :
    ∃ cmdss1, InvHF cmdss1
      ⟨s.segments.set s.active_nth_file
        (s.segments.getD s.active_nth_file [] ++ encodeCommand (.Set k v) ++ ['#']),
       idxInsert s.index k (s.active_nth_file, (s.segments.getD s.active_nth_file []).length),
       s.active_nth_file⟩ := by
  rcases List.eq_nil_or_concat cmdss with hnil | ⟨front, csA, hfc⟩
  · have := h.len
    rw [hnil] at this
    cases this
  rw [List.concat_eq_append] at hfc
  have hflen : front.length = s.active_nth_file := by
    have := h.len
    rw [hfc, List.length_append, List.length_singleton] at this
    omega
  have hflen2 : (front.map encodeLog).length = s.active_nth_file := by
    rw [List.length_map, hflen]
  have hsegs0 : s.segments = front.map encodeLog ++ [encodeLog csA] := by
    rw [h.segs, hfc, List.map_append]
    rfl
  have hgetD : s.segments.getD s.active_nth_file [] = encodeLog csA := by
    rw [hsegs0, ← hflen2, getD_append_singleton]
  refine ⟨front ++ [csA ++ [Command.Set k v]], set_mid_inv h.base k v, ?_, ?_, ?_, ?_⟩
  · rw [List.length_append, List.length_singleton]
    have := h.len
    rw [hfc, List.length_append, List.length_singleton] at this
    exact this
  · dsimp only
    rw [hgetD, hsegs0, ← hflen2, set_last_append, List.map_append]
    have hset : encodeLog (csA ++ [Command.Set k v]) =
        encodeLog csA ++ encodeCommand (.Set k v) ++ ['#'] := by
      rw [encodeLog_append, encodeLog_singleton, List.append_assoc]
    rw [← hset]
    rfl
  · intro cs hcs c hc
    rcases List.mem_append.mp hcs with hcs | hcs
    · exact h.hf cs (by rw [hfc]; exact List.mem_append_left _ hcs) c hc
    · rw [List.mem_singleton] at hcs
      subst hcs
      rcases List.mem_append.mp hc with hc | hc
      · exact h.hf csA (by rw [hfc]; exact List.mem_append_right _ (List.mem_singleton.mpr rfl))
          c hc
      · rw [List.mem_singleton] at hc
        subst hc
        exact ⟨hk, hv⟩
  · intro k'
    have hagree := h.agree k'
    rw [hfc, replayFilesK_append, replayFilesK_singleton, Nat.zero_add, hflen] at hagree
    rw [replayFilesK_append, replayFilesK_singleton, Nat.zero_add, hflen, replayK_append,
      hagree, replayK_cons, replayK_nil]
    dsimp only
    rw [idxGet_insert_eval]
    rw [hgetD, Nat.zero_add]

/-- Appending a `#`-free `Rm` record preserves the delimiter-free
invariant on the pre-`try_compact` state of `remove`. -/
theorem rm_mid_hf {cmdss : List (List Command)} {s : KvStoreState} (h : InvHF cmdss s)
    (k : Str) (hk : '#' ∉ k) :
    ∃ cmdss1, InvHF cmdss1
      ⟨s.segments.set s.active_nth_file
        (s.segments.getD s.active_nth_file [] ++ encodeCommand (.Rm k) ++ ['#']),
       idxRemove s.index k, s.active_nth_file⟩ := by
  rcases List.eq_nil_or_concat cmdss with hnil | ⟨front, csA, hfc⟩
  · have := h.len
    rw [hnil] at this
    cases this
  rw [List.concat_eq_append] at hfc
  have hflen : front.length = s.active_nth_file := by
    have := h.len
    rw [hfc, List.length_append, List.length_singleton] at this
    omega
  have hflen2 : (front.map encodeLog).length = s.active_nth_file := by
    rw [List.length_map, hflen]
  have hsegs0 : s.segments = front.map encodeLog ++ [encodeLog csA] := by
    rw [h.segs, hfc, List.map_append]
    rfl
  have hgetD : s.segments.getD s.active_nth_file [] = encodeLog csA := by
    rw [hsegs0, ← hflen2, getD_append_singleton]
  refine ⟨front ++ [csA ++ [Command.Rm k]], rm_mid_inv h.base k, ?_, ?_, ?_, ?_⟩
  · rw [List.length_append, List.length_singleton]
    have := h.len
    rw [hfc, List.length_append, List.length_singleton] at this
    exact this
  · dsimp only
    rw [hgetD, hsegs0, ← hflen2, set_last_append, List.map_append]
    have hset : encodeLog (csA ++ [Command.Rm k]) =
        encodeLog csA ++ encodeCommand (.Rm k) ++ ['#'] := by
      rw [encodeLog_append, encodeLog_singleton, List.append_assoc]
    rw [← hset]
    rfl
  · intro cs hcs c hc
    rcases List.mem_append.mp hcs with hcs | hcs
    · exact h.hf cs (by rw [hfc]; exact List.mem_append_left _ hcs) c hc
    · rw [List.mem_singleton] at hcs
      subst hcs
      rcases List.mem_append.mp hc with hc | hc
      · exact h.hf csA (by rw [hfc]; exact List.mem_append_right _ (List.mem_singleton.mpr rfl))
          c hc
      · rw [List.mem_singleton] at hc
        subst hc
        exact hk
  · intro k'
    have hagree := h.agree k'
    rw [hfc, replayFilesK_append, replayFilesK_singleton, Nat.zero_add, hflen] at hagree
    rw [replayFilesK_append, replayFilesK_singleton, Nat.zero_add, hflen, replayK_append,
      hagree, replayK_cons, replayK_nil]
    dsimp only
    rw [idxGet_remove_eval]


theorem encodeLog_take_succ_length (l : List Command) (j : Nat) (hj : j < l.length) :
    (encodeLog (l.take (j + 1))).length =
      (encodeLog (l.take j)).length + (encodeCommand (l.get ⟨j, hj⟩)).length + 1 := by
  rw [List.take_succ, List.getElem?_eq_getElem hj]
  have ht : (some l[j]).toList = [l[j]] := rfl
  rw [ht, encodeLog_append, List.length_append, encodeLog_singleton, List.length_append,
    List.length_singleton]
  have hg : l.get ⟨j, hj⟩ = l[j] := rfl
  rw [hg]
  omega

theorem encodeLog_take_lt (l : List Command) :
    ∀ (j2 j1 : Nat), j1 < j2 → j2 ≤ l.length →
    (encodeLog (l.take j1)).length < (encodeLog (l.take j2)).length := by
  intro j2
  induction j2 with
  | zero => intro j1 h _; exact absurd h (Nat.not_lt_zero _)
  | succ m ih =>
    intro j1 h hle
    have hm : m < l.length := by omega
    have hstep := encodeLog_take_succ_length l m hm
    by_cases hj : j1 = m
    · subst hj
      omega
    · have hlt : j1 < m := by omega
      have := ih j1 hlt (by omega)
      omega

theorem keys_nodup_of_positions {recs : List (Str × Str)} {idx : Index}
    (hpt : ∀ j (hj : j < recs.length),
      idxGet idx (recs.get ⟨j, hj⟩).1 =
        some (0, (encodeLog ((recs.take j).map fun r => Command.Set r.1 r.2)).length)) :
    ((recs.map Prod.fst).Nodup) := by
  rw [List.nodup_iff_injective_get]
  intro a b heq
  obtain ⟨j1, h1⟩ := a
  obtain ⟨j2, h2⟩ := b
  have h1' : j1 < recs.length := by simpa using h1
  have h2' : j2 < recs.length := by simpa using h2
  have hg1 : (recs.map Prod.fst).get ⟨j1, h1⟩ = (recs.get ⟨j1, h1'⟩).1 := by
    rw [List.get_eq_getElem, List.get_eq_getElem, List.getElem_map]
  have hg2 : (recs.map Prod.fst).get ⟨j2, h2⟩ = (recs.get ⟨j2, h2'⟩).1 := by
    rw [List.get_eq_getElem, List.get_eq_getElem, List.getElem_map]
  rw [hg1, hg2] at heq
  have hp1 := hpt j1 h1'
  have hp2 := hpt j2 h2'
  rw [heq] at hp1
  rw [hp2] at hp1
  injection hp1 with hp
  rw [Prod.mk.injEq] at hp
  have hpe : (encodeLog ((recs.take j2).map fun r => Command.Set r.1 r.2)).length =
      (encodeLog ((recs.take j1).map fun r => Command.Set r.1 r.2)).length := hp.2
  rw [List.map_take, List.map_take] at hpe
  have hlen : (recs.map fun r => Command.Set r.1 r.2).length = recs.length :=
    List.length_map _ _
  rcases Nat.lt_trichotomy j1 j2 with hlt | heqj | hgt
  · have := encodeLog_take_lt (recs.map fun r => Command.Set r.1 r.2) j2 j1 hlt
      (by omega)
    omega
  · exact Fin.ext heqj
  · have := encodeLog_take_lt (recs.map fun r => Command.Set r.1 r.2) j1 j2 hgt
      (by omega)
    omega

theorem replayK_sets_notmem (i : Nat) (k : Str) :
    ∀ (recs : List (Str × Str)) (pos : Nat) (a : Option (Nat × Nat)),
    k ∉ recs.map Prod.fst →
    replayK i k (recs.map fun r => Command.Set r.1 r.2) pos a = a := by
  intro recs
  induction recs with
  | nil => intro pos a _; rfl
  | cons r rest ih =>
    intro pos a hnm
    rw [List.map_cons, replayK_cons]
    dsimp only
    have hne : r.1 ≠ k := by
      intro he
      exact hnm (by rw [List.map_cons]; exact he ▸ List.mem_cons_self _ _)
    rw [if_neg hne]
    exact ih _ _ (fun hm => hnm (by rw [List.map_cons]; exact List.mem_cons_of_mem _ hm))

theorem replayK_sets_mem (i : Nat) :
    ∀ (recs : List (Str × Str)), ((recs.map Prod.fst).Nodup) →
    ∀ (j : Nat) (hj : j < recs.length) (pos : Nat) (a : Option (Nat × Nat)),
    replayK i (recs.get ⟨j, hj⟩).1 (recs.map fun r => Command.Set r.1 r.2) pos a =
      some (i, pos + (encodeLog ((recs.take j).map fun r => Command.Set r.1 r.2)).length) := by
  intro recs
  induction recs with
  | nil => intro _ j hj; exact absurd hj (Nat.not_lt_zero _)
  | cons r rest ih =>
    intro hnd j hj pos a
    rw [List.map_cons, replayK_cons]
    dsimp only
    rw [List.map_cons, List.nodup_cons] at hnd
    cases j with
    | zero =>
      have hkey : ((r :: rest).get ⟨0, hj⟩) = r := rfl
      rw [hkey, if_pos rfl, replayK_sets_notmem i r.1 rest _ _ hnd.1]
      rw [List.take_zero, List.map_nil, encodeLog_nil, List.length_nil, Nat.add_zero]
    | succ m =>
      have hm : m < rest.length := by
        rw [List.length_cons] at hj
        omega
      have hkey : ((r :: rest).get ⟨m + 1, hj⟩) = rest.get ⟨m, hm⟩ := rfl
      rw [hkey]
      have hne : r.1 ≠ (rest.get ⟨m, hm⟩).1 := by
        intro he
        exact hnd.1 (he ▸ List.mem_map.mpr ⟨rest.get ⟨m, hm⟩, List.get_mem _ _ _, rfl⟩)
      rw [if_neg hne, ih hnd.2 m hm _ a]
      have harith : pos + (encodeCommand (Command.Set r.1 r.2)).length + 1 +
          (encodeLog ((rest.take m).map fun r => Command.Set r.1 r.2)).length =
          pos + (encodeLog (((r :: rest).take (m + 1)).map fun r =>
            Command.Set r.1 r.2)).length := by
        rw [List.take_succ_cons, List.map_cons, encodeLog_cons, List.length_append,
          List.length_cons]
        omega
      rw [harith]

/-- `compact` on a delimiter-free store whose active segment is empty
(the situation in which `try_compact` invokes it) succeeds and yields a
delimiter-free single-segment store. -/
theorem compact_hf {cmdss : List (List Command)} {s : KvStoreState} (h : InvHF cmdss s)
    (hlast : s.segments.getD s.active_nth_file [] = []) :
    (compact s).2 = none ∧ ∃ cmdss1, InvHF cmdss1 (compact s).1 := by
  have hcg : compact s = compactGo s s.index (s.segments.getD s.active_nth_file []) [] := rfl
  have hnone : (compact s).2 = none := by
    rw [hcg]
    refine compactGo_no_error s ?_ s.index _ []
      (fun k e hm => idxGet_of_mem hm h.base.nodup)
    intro k n pos hidx _
    obtain ⟨_, v, _, hr, _⟩ := invHF_read h k n pos hidx
    exact ⟨_, hr⟩
  refine ⟨hnone, ?_⟩
  obtain ⟨hget, hinv, hshape⟩ := compact_spec h.base
  obtain ⟨fileF, newIdxF, recsF, heq, hfile, hpt, _, hkeep⟩ := hshape hnone
  rw [hlast, List.nil_append] at hfile
  simp only [hlast, List.length_nil, Nat.zero_add] at hpt
  have hnokeep : ∀ k, idxGet newIdxF k ≠ none → k ∈ recsF.map Prod.fst := by
    intro k hne
    rcases hkeep k hne with hm | ⟨n, pos, hidx, hge⟩
    · exact hm
    · obtain ⟨hk, cs, v, rest, hcs, hv, hdrop⟩ := invHF_entries h k n pos hidx
      have hlt : n < cmdss.length := by
        by_contra hge'
        rw [List.getElem?_eq_none (by omega)] at hcs
        cases hcs
      have hn : n = s.active_nth_file := by
        have := h.len
        omega
      have hfn : s.segments[n]? = some (encodeLog cs) := by
        rw [h.segs, List.getElem?_map, hcs]
        rfl
      rw [hn] at hfn
      have hnil : encodeLog cs = [] := by
        rw [← getD_of_getElem?_some hfn, hlast]
      rw [hnil, List.drop_nil] at hdrop
      cases (List.append_eq_nil.mp hdrop.symm).2
  have hnd : (recsF.map Prod.fst).Nodup := keys_nodup_of_positions hpt
  have hregion : ∀ j (hj : j < recsF.length),
      fileF.drop ((encodeLog ((recsF.take j).map fun r => Command.Set r.1 r.2)).length) =
        encodeCommand (Command.Set (recsF.get ⟨j, hj⟩).1 (recsF.get ⟨j, hj⟩).2) ++
          '#' :: encodeLog ((recsF.drop (j + 1)).map fun r => Command.Set r.1 r.2) := by
    intro j hj
    have hsplit : (recsF.map fun r => Command.Set r.1 r.2) =
        ((recsF.take j).map fun r => Command.Set r.1 r.2) ++
          Command.Set (recsF.get ⟨j, hj⟩).1 (recsF.get ⟨j, hj⟩).2 ::
            ((recsF.drop (j + 1)).map fun r => Command.Set r.1 r.2) := by
      conv_lhs => rw [← List.take_append_drop j recsF]
      rw [List.map_append, List.drop_eq_getElem_cons hj, List.map_cons]
      rfl
    rw [hfile, hsplit, encodeLog_append, List.drop_left, encodeLog_cons]
  have hrecs_hf : ∀ j (hj : j < recsF.length),
      '#' ∉ (recsF.get ⟨j, hj⟩).1 ∧ '#' ∉ (recsF.get ⟨j, hj⟩).2 := by
    intro j hj
    have hptj := hpt j hj
    have hne : idxGet newIdxF (recsF.get ⟨j, hj⟩).1 ≠ none := by
      rw [hptj]
      intro hc
      cases hc
    have hkk := compactGo_keys s s.index (s.segments.getD s.active_nth_file []) []
      (by rw [← hcg]; exact hnone) (recsF.get ⟨j, hj⟩).1
      (by rw [← hcg, heq]; exact hne)
    rcases hkk with hl | ⟨e, hme⟩
    · exact absurd rfl hl
    have holdidx : idxGet s.index (recsF.get ⟨j, hj⟩).1 = some e :=
      idxGet_of_mem hme h.base.nodup
    obtain ⟨n0, q⟩ := e
    obtain ⟨hk1, vold, hvold, _, hgold⟩ := invHF_read h _ n0 q holdidx
    have hfile0 : ([fileF] : List (List Char))[0]? = some fileF := rfl
    have hgnew := get_eval (s := ⟨[fileF], newIdxF, 0⟩) hptj hfile0 (hregion j hj)
    have hpres := hget (recsF.get ⟨j, hj⟩).1
    rw [heq, hgnew, hgold] at hpres
    by_cases hm : '#' ∈ encodeCommand (Command.Set (recsF.get ⟨j, hj⟩).1 (recsF.get ⟨j, hj⟩).2)
    · rw [if_pos hm] at hpres
      cases hpres
    · rw [if_neg hm] at hpres
      injection hpres with hp
      injection hp with hp2
      exact ⟨hk1, hp2 ▸ hvold⟩
  refine ⟨[recsF.map fun r => Command.Set r.1 r.2], hinv, ?_, ?_, ?_, ?_⟩
  · rw [heq]
    rfl
  · rw [heq, hfile]
    rfl
  · intro cs hcs c hc
    rw [List.mem_singleton] at hcs
    subst hcs
    obtain ⟨r, hr, hrc⟩ := List.mem_map.mp hc
    obtain ⟨⟨j, hj⟩, hgetr⟩ := List.mem_iff_get.mp hr
    subst hrc
    obtain ⟨h1, h2⟩ := hrecs_hf j hj
    rw [hgetr] at h1 h2
    exact ⟨h1, h2⟩
  · intro k'
    rw [heq]
    rw [replayFilesK_singleton]
    by_cases hmem : k' ∈ recsF.map Prod.fst
    · obtain ⟨r, hr, hfst⟩ := List.mem_map.mp hmem
      obtain ⟨⟨j, hj⟩, hgetr⟩ := List.mem_iff_get.mp hr
      subst hfst
      rw [← hgetr]
      rw [replayK_sets_mem 0 recsF hnd j hj 0 none, hpt j hj, Nat.zero_add]
    · rw [replayK_sets_notmem 0 k' recsF 0 none hmem]
      rcases hq : idxGet newIdxF k' with _ | e
      · rfl
      · exact absurd (hnokeep k' (by rw [hq]; intro hc; cases hc)) hmem

/-- `try_compact` on a delimiter-free store succeeds and preserves the
delimiter-free invariant. -/
theorem try_compact_hf {cmdss : List (List Command)} {s : KvStoreState} (h : InvHF cmdss s)
    (pos : Nat) :
    (try_compact pos s).2 = none ∧ ∃ cmdss1, InvHF cmdss1 (try_compact pos s).1 := by
  unfold try_compact
  by_cases hp : pos > SINGLE_FILE_SIZE
  · rw [if_pos hp]
    have hroll := rollover_hf h
    by_cases hc : (⟨s.segments ++ [[]], s.index, s.active_nth_file + 1⟩ :
        KvStoreState).index.length <
      (⟨s.segments ++ [[]], s.index, s.active_nth_file + 1⟩ :
        KvStoreState).active_nth_file * 1024
    · rw [if_pos hc]
      have hlast : (⟨s.segments ++ [[]], s.index, s.active_nth_file + 1⟩ :
          KvStoreState).segments.getD
          (⟨s.segments ++ [[]], s.index, s.active_nth_file + 1⟩ :
            KvStoreState).active_nth_file [] = [] := by
        dsimp only
        rw [List.getD_eq_getElem?_getD,
          List.getElem?_append_right (by rw [h.base.seg_len]),
          show s.active_nth_file + 1 - s.segments.length = 0 from by
            rw [h.base.seg_len]; omega]
        rfl
      exact compact_hf hroll hlast
    · rw [if_neg hc]
      exact ⟨rfl, ⟨cmdss ++ [[]], hroll⟩⟩
  · rw [if_neg hp]
    exact ⟨rfl, ⟨cmdss, h⟩⟩

/-- `set` with `#`-free arguments on a delimiter-free store succeeds and
preserves the delimiter-free invariant. -/
theorem set_hf {cmdss : List (List Command)} {s : KvStoreState} (h : InvHF cmdss s)
    (k v : Str) (hk : '#' ∉ k) (hv : '#' ∉ v) :
    (set s k v).2 = none ∧ ∃ cmdss1, InvHF cmdss1 (set s k v).1 := by
  rw [set_eq]
  obtain ⟨cmdss1, hmid⟩ := set_mid_hf h k v hk hv
  exact try_compact_hf hmid _

/-- `remove` with a `#`-free key preserves the delimiter-free invariant
(also when it fails with `KeyNotFound` and leaves the store unchanged). -/
theorem remove_hf {cmdss : List (List Command)} {s : KvStoreState} (h : InvHF cmdss s)
    (k : Str) (hk : '#' ∉ k) :
    ∃ cmdss1, InvHF cmdss1 (remove s k).1 := by
  rcases hq : idxGet s.index k with _ | e
  · rw [remove_absent hq]
    exact ⟨cmdss, h⟩
  · rw [remove_eq_of_present (by rw [hq]; rfl)]
    obtain ⟨cmdss1, hmid⟩ := rm_mid_hf h k hk
    exact (try_compact_hf hmid _).2

/-- Every state reachable through `#`-free operations satisfies the
delimiter-free invariant for some family of per-file command logs. -/
theorem reachHF_inv {s : KvStoreState} (h : ReachHF s) : ∃ cmdss, InvHF cmdss s := by
  induction h with
  | init =>
    refine ⟨[[]], reach_inv Reach.init, rfl, rfl, ?_, fun k => rfl⟩
    intro cs hcs c hc
    rw [List.mem_singleton] at hcs
    subst hcs
    cases hc
  | set_step s k v _ hk hv ih =>
    obtain ⟨cmdss, hI⟩ := ih
    exact (set_hf hI k v hk hv).2
  | rm_step s k _ hk ih =>
    obtain ⟨cmdss, hI⟩ := ih
    exact remove_hf hI k hk

theorem openStore_cons (f : List Char) (fs : List (List Char)) :
    openStore (f :: fs) =
      (match replayFiles (f :: fs) 0 [] with
       | .ok index => .ok ⟨f :: fs, index, (f :: fs).length - 1⟩
       | .error e => .error e) := by
  rw [openStore.eq_def]
  dsimp only
  rcases replayFiles (f :: fs) 0 [] with e | idx <;> rfl

/-- Reopening a delimiter-free store rebuilds an index with the same
lookups, so every `get` answer is preserved. -/
theorem invHF_reopen {cmdss : List (List Command)} {s : KvStoreState} (h : InvHF cmdss s) :
    ∃ s', openStore s.segments = .ok s' ∧ ∀ k, get s' k = get s k := by
  have hlen : s.segments.length = s.active_nth_file + 1 := h.base.seg_len
  rcases hseg : s.segments with _ | ⟨f, fs⟩
  · rw [hseg] at hlen
    cases hlen
  obtain ⟨ridx, hok, hlook⟩ := replayFiles_lookup cmdss h.hf 0 []
  have hok2 : replayFiles (f :: fs) 0 [] = .ok ridx := by
    rw [← hseg, h.segs]
    exact hok
  refine ⟨⟨f :: fs, ridx, (f :: fs).length - 1⟩, ?_, ?_⟩
  · rw [openStore_cons, hok2]
  · intro k
    refine get_congr k ?_ ?_
    · dsimp only
      exact hseg.symm
    · dsimp only
      rw [hlook k]
      exact h.agree k


theorem runOps_untouched (k : Str) :
    ∀ (ops : List EngineOp) (s : KvStoreState), StoreInv s →
    (∀ op ∈ ops, ¬ opTouches k op) →
    get (runOps s ops) k = get s k ∧ StoreInv (runOps s ops) := by
  intro ops
  induction ops with
  | nil => intro s hInv _; exact ⟨rfl, hInv⟩
  | cons op rest ih =>
    intro s hInv hops
    have hop := hops op (List.mem_cons_self _ _)
    have hrest := fun op' h' => hops op' (List.mem_cons_of_mem _ h')
    have hrun : runOps s (op :: rest) = runOps (applyOp s op).1 rest := rfl
    rw [hrun]
    cases op with
    | opSet k0 v0 =>
      have hne : k ≠ k0 := fun he => hop he.symm
      obtain ⟨hi, _, hother⟩ := set_spec hInv k0 v0
      have happ : (applyOp s (EngineOp.opSet k0 v0)).1 = (set s k0 v0).1 := rfl
      rw [happ]
      obtain ⟨hg, hI⟩ := ih (set s k0 v0).1 hi hrest
      exact ⟨by rw [hg, hother k hne], hI⟩
    | opRm k0 =>
      have hne : k ≠ k0 := fun he => hop he.symm
      have happ : (applyOp s (EngineOp.opRm k0)).1 = (remove s k0).1 := rfl
      rw [happ]
      rcases hq : idxGet s.index k0 with _ | e
      · have h1 : (remove s k0).1 = s := by rw [remove_absent hq]
        rw [h1]
        exact ih s hInv hrest
      · obtain ⟨hi, _, hother⟩ := remove_spec_present hInv (k := k0) (by rw [hq]; rfl)
        obtain ⟨hg, hI⟩ := ih (remove s k0).1 hi hrest
        exact ⟨by rw [hg, hother k hne], hI⟩

/-- C1 (corrected): after a successful `set k v` on a reachable store, if
no later operation writes `k`, then `get k` returns `Ok (Some v)` —
provided `k` and `v` avoid the `#` record delimiter, a restriction the
claim omits (see the counterexample for a `#`-containing value). -/
theorem C1_get_after_set {s : KvStoreState} (h : Reach s) {k v : Str}
    (hk : '#' ∉ k) (hv : '#' ∉ v) (hok : (set s k v).2 = none)
    (ops : List EngineOp) (hops : ∀ op ∈ ops, ¬ opTouches k op) :
    get (runOps (set s k v).1 ops) k = .ok (some v) := by
  have hInv := reach_inv h
  obtain ⟨hi1, hself, _⟩ := set_spec hInv k v
  have hm : '#' ∉ encodeCommand (.Set k v) := hash_notMem_encode ⟨hk, hv⟩
  rw [(runOps_untouched k ops (set s k v).1 hi1 hops).1, hself, if_neg hm]

theorem C1_witness :
    (set emptyStore ['k'] ['v']).2 = none ∧
    get (runOps (set emptyStore ['k'] ['v']).1
      [EngineOp.opSet ['a'] ['b'], EngineOp.opRm ['a']]) ['k'] = .ok (some ['v']) :=
  ⟨by decide, C1_get_after_set Reach.init (by decide) (by decide) (by decide)
    [EngineOp.opSet ['a'] ['b'], EngineOp.opRm ['a']] (by decide)⟩

/-- C1 counterexample: `set` of the value `"#"` returns `Ok` and no
further operation intervenes, yet the immediate `get` does not return the
value: framing cuts the record at the embedded `#`, so `get` fails with a
decode error. -/
theorem C1_counterexample :
    (set emptyStore ['k'] ['#']).2 = none ∧
    get (set emptyStore ['k'] ['#']).1 ['k'] = .error .SerdeJSONError :=
  ⟨by decide, by decide⟩

/-- C2 (corrected): reopening a store reached through `#`-free `set` and
`remove` operations rebuilds an index giving every key the same `get`
answer; the claim's unrestricted version fails for `#`-containing
strings (see the counterexample). -/
theorem C2_reopen_preserves_get {s : KvStoreState} (h : ReachHF s) :
    ∃ s', openStore s.segments = .ok s' ∧ ∀ k, get s' k = get s k := by
  obtain ⟨cmdss, hI⟩ := reachHF_inv h
  exact invHF_reopen hI

theorem C2_witness :
    ∃ s', openStore (set emptyStore ['k'] ['v']).1.segments = .ok s' ∧
      ∀ k, get s' k = get (set emptyStore ['k'] ['v']).1 k :=
  C2_reopen_preserves_get (ReachHF.set_step _ _ _ ReachHF.init (by decide) (by decide))

/-- C2 counterexample: a successful `set` of the value `"#"` leaves a log
on which `open` fails outright with a decode error instead of rebuilding
an index with the same `get` answers. -/
theorem C2_counterexample :
    (set emptyStore ['k'] ['#']).2 = none ∧
    openStore (set emptyStore ['k'] ['#']).1.segments = .error .SerdeJSONError :=
  ⟨by decide, by decide⟩


theorem logAnswer_nil (k : Str) (a : Option Str) : logAnswer k [] a = a := rfl

theorem logAnswer_set (k k0 v : Str) (cs : List Command) (a : Option Str) :
    logAnswer k (.Set k0 v :: cs) a = logAnswer k cs (if k0 = k then some v else a) := by
  rw [logAnswer.eq_def]

theorem logAnswer_get (k g : Str) (cs : List Command) (a : Option Str) :
    logAnswer k (.Get g :: cs) a = logAnswer k cs a := by
  rw [logAnswer.eq_def]

theorem logAnswer_rm (k k0 : Str) (cs : List Command) (a : Option Str) :
    logAnswer k (.Rm k0 :: cs) a = logAnswer k cs (if k0 = k then none else a) := by
  rw [logAnswer.eq_def]

theorem removeGets_nil : removeGets [] = [] := rfl

theorem removeGets_get (g : Str) (cs : List Command) :
    removeGets (.Get g :: cs) = removeGets cs := by
  rw [removeGets.eq_def]

theorem removeGets_set (k v : Str) (cs : List Command) :
    removeGets (.Set k v :: cs) = .Set k v :: removeGets cs := by
  rw [removeGets.eq_def]

theorem removeGets_rm (k : Str) (cs : List Command) :
    removeGets (.Rm k :: cs) = .Rm k :: removeGets cs := by
  rw [removeGets.eq_def]

theorem removeGets_hf :
    ∀ (cmds : List Command), (∀ c ∈ cmds, cmdHashFree c) →
    ∀ c ∈ removeGets cmds, cmdHashFree c := by
  intro cmds
  induction cmds with
  | nil => intro _ c hc; cases hc
  | cons c0 cs ih =>
    intro h
    have hcs := fun c' h' => h c' (List.mem_cons_of_mem _ h')
    cases c0 with
    | Get g =>
      rw [removeGets_get]
      exact ih hcs
    | Set k v =>
      rw [removeGets_set]
      intro c hc
      rcases List.mem_cons.mp hc with hc | hc
      · subst hc
        exact h _ (List.mem_cons_self _ _)
      · exact ih hcs c hc
    | Rm k =>
      rw [removeGets_rm]
      intro c hc
      rcases List.mem_cons.mp hc with hc | hc
      · subst hc
        exact h _ (List.mem_cons_self _ _)
      · exact ih hcs c hc

theorem logAnswer_removeGets (k : Str) :
    ∀ (cmds : List Command) (a : Option Str),
    logAnswer k (removeGets cmds) a = logAnswer k cmds a := by
  intro cmds
  induction cmds with
  | nil => intro a; rfl
  | cons c cs ih =>
    intro a
    cases c with
    | Set k0 v => rw [removeGets_set, logAnswer_set, logAnswer_set, ih]
    | Get g => rw [removeGets_get, logAnswer_get, ih]
    | Rm k0 => rw [removeGets_rm, logAnswer_rm, logAnswer_rm, ih]

/-- The replay entry for one key and the last-writer-wins answer of the
log march in lockstep: either both are empty, or the entry points at the
canonical record of the answer's value. -/
theorem replayK_logAnswer (i : Nat) (k : Str) (full : List Char) :
    ∀ (cmds : List Command) (done : List Char) (a : Option (Nat × Nat)) (va : Option Str),
    (∀ c ∈ cmds, cmdHashFree c) →
    full = done ++ encodeLog cmds →
    ((a = none ∧ va = none) ∨
      ∃ pos v rest, a = some (i, pos) ∧ va = some v ∧ '#' ∉ k ∧ '#' ∉ v ∧
        full.drop pos = encodeCommand (.Set k v) ++ '#' :: rest) →
    ((replayK i k cmds done.length a = none ∧ logAnswer k cmds va = none) ∨
      ∃ pos v rest, replayK i k cmds done.length a = some (i, pos) ∧
        logAnswer k cmds va = some v ∧ '#' ∉ k ∧ '#' ∉ v ∧
        full.drop pos = encodeCommand (.Set k v) ++ '#' :: rest) := by
  intro cmds
  induction cmds with
  | nil =>
    intro done a va _ _ hacc
    rcases hacc with ⟨ha, hva⟩ | ⟨pos, v, rest, ha, hva, hk, hv, hr⟩
    · left
      rw [replayK_nil, logAnswer_nil, ha, hva]
      exact ⟨rfl, rfl⟩
    · right
      exact ⟨pos, v, rest, by rw [replayK_nil, ha], by rw [logAnswer_nil, hva], hk, hv, hr⟩
  | cons c cs ih =>
    intro done a va hhf hfull hacc
    rw [replayK_cons]
    have hlen : done.length + (encodeCommand c).length + 1 =
        (done ++ (encodeCommand c ++ ['#'])).length := by
      rw [List.length_append, List.length_append, List.length_singleton]
      omega
    rw [hlen]
    have hfull2 : full = (done ++ (encodeCommand c ++ ['#'])) ++ encodeLog cs := by
      rw [hfull, encodeLog_cons, List.append_assoc, List.append_assoc]
      rfl
    have hhfcs : ∀ c' ∈ cs, cmdHashFree c' := fun c' h' => hhf c' (List.mem_cons_of_mem _ h')
    cases c with
    | Set k0 v0 =>
      dsimp only
      rw [logAnswer_set]
      by_cases hk0 : k0 = k
      · rw [if_pos hk0, if_pos hk0]
        refine ih _ _ _ hhfcs hfull2 ?_
        right
        refine ⟨done.length, v0, encodeLog cs, rfl, rfl, ?_, (hhf _ (List.mem_cons_self _ _)).2, ?_⟩
        · rw [← hk0]
          exact (hhf _ (List.mem_cons_self _ _)).1
        · rw [hfull, List.drop_left, encodeLog_cons, hk0]
      · rw [if_neg hk0, if_neg hk0]
        exact ih _ _ _ hhfcs hfull2 hacc
    | Get k0 =>
      dsimp only
      rw [logAnswer_get]
      exact ih _ _ _ hhfcs hfull2 hacc
    | Rm k0 =>
      dsimp only
      rw [logAnswer_rm]
      by_cases hk0 : k0 = k
      · rw [if_pos hk0, if_pos hk0]
        exact ih _ _ _ hhfcs hfull2 (Or.inl ⟨rfl, rfl⟩)
      · rw [if_neg hk0, if_neg hk0]
        exact ih _ _ _ hhfcs hfull2 hacc

/-- Opening a directory holding one `#`-free log yields a store whose
`get` answers are exactly the last-writer-wins answers of the log. -/
theorem openStore_single_log {cmds : List Command} (hhf : ∀ c ∈ cmds, cmdHashFree c) :
    ∃ ridx, openStore [encodeLog cmds] = .ok ⟨[encodeLog cmds], ridx, 0⟩ ∧
      ∀ k, get ⟨[encodeLog cmds], ridx, 0⟩ k = .ok (logAnswer k cmds none) := by
  have hhf1 : ∀ cs ∈ [cmds], ∀ c ∈ cs, cmdHashFree c := by
    intro cs hcs
    rw [List.mem_singleton] at hcs
    subst hcs
    exact hhf
  obtain ⟨ridx, hok, hlook⟩ := replayFiles_lookup [cmds] hhf1 0 []
  have hok2 : replayFiles [encodeLog cmds] 0 [] = .ok ridx := hok
  refine ⟨ridx, ?_, ?_⟩
  · rw [openStore_cons, hok2]
    rfl
  · intro k
    have hlk : idxGet ridx k = replayK 0 k cmds 0 none := hlook k
    have hres := replayK_logAnswer 0 k (encodeLog cmds) cmds [] none none hhf rfl
      (Or.inl ⟨rfl, rfl⟩)
    rcases hres with ⟨hrk, hla⟩ | ⟨pos, v, rest, hrk, hla, hknm, hvnm, hreg⟩
    · have hidx : idxGet (⟨[encodeLog cmds], ridx, 0⟩ : KvStoreState).index k = none := by
        dsimp only
        rw [hlk]
        exact hrk
      rw [get_absent hidx, hla]
    · have hidx : idxGet (⟨[encodeLog cmds], ridx, 0⟩ : KvStoreState).index k =
          some (0, pos) := by
        dsimp only
        rw [hlk]
        exact hrk
      have hfile0 : ([encodeLog cmds] : List (List Char))[0]? = some (encodeLog cmds) := rfl
      have hg := get_eval (s := ⟨[encodeLog cmds], ridx, 0⟩) hidx hfile0 hreg
      have hne : '#' ∉ encodeCommand (.Set k v) := hash_notMem_encode ⟨hknm, hvnm⟩
      rw [hg, if_neg hne, hla]

/-- C10 (corrected): startup replay skips a persisted `Get` record — the
chunk decodes, the index is unchanged and only the running offset
advances — and for `#`-free logs the rebuilt index yields the same `get`
answers as the log with the `Get` records deleted; the claim's stronger
"rebuilt index equals" is false, since the record still shifts the
offsets of later entries (see the counterexample). -/
theorem C10_replay_skips_get :
    (∀ (i : Nat) (g : Str) (chunks : List (List Char)) (pos : Nat) (idx : Index),
      replayChunks i (encodeCommand (.Get g) :: chunks) pos idx =
        replayChunks i chunks (pos + (encodeCommand (.Get g)).length + 1) idx) ∧
    ∀ cmds : List Command, (∀ c ∈ cmds, cmdHashFree c) →
    ∃ s1 s2, openStore [encodeLog cmds] = .ok s1 ∧
      openStore [encodeLog (removeGets cmds)] = .ok s2 ∧
      ∀ k, get s1 k = get s2 k := by
  constructor
  · intro i g chunks pos idx
    rw [replayChunks_cons, decode_encode]
  · intro cmds hhf
    obtain ⟨r1, ho1, hg1⟩ := openStore_single_log hhf
    obtain ⟨r2, ho2, hg2⟩ := openStore_single_log (removeGets_hf cmds hhf)
    refine ⟨_, _, ho1, ho2, fun k => ?_⟩
    rw [hg1 k, hg2 k, logAnswer_removeGets]

theorem C10_witness :
    ∃ s1 s2, openStore [encodeLog [.Get ['g'], .Set ['k'] ['v']]] = .ok s1 ∧
      openStore [encodeLog (removeGets [.Get ['g'], .Set ['k'] ['v']])] = .ok s2 ∧
      ∀ k, get s1 k = get s2 k :=
  C10_replay_skips_get.2 [.Get ['g'], .Set ['k'] ['v']] (by decide)

/-- C10 counterexample: the index rebuilt from a log holding a `Get`
record is NOT equal to the index rebuilt from the same log with the `Get`
deleted — the skipped record still advances the offset, so the entry for
`k` points at 20 instead of 0. -/
theorem C10_counterexample :
    replayFiles [encodeLog [.Get ['g'], .Set ['k'] ['v']]] 0 [] =
      .ok [(['k'], (0, 20))] ∧
    replayFiles [encodeLog (removeGets [.Get ['g'], .Set ['k'] ['v']])] 0 [] =
      .ok [(['k'], (0, 0))] ∧
    ([(['k'], (0, 20))] : Index) ≠ [(['k'], (0, 0))] :=
  ⟨by decide, by decide, by decide⟩

end KvStore
